import Mathlib

/-!
Verification development for the wiki-search repository (bidirectional
greedy best-first search over the MediaWiki link graph).

The Go sources are shallowly embedded:

* `WikiSearch.WikiNode`, `WikiSearch.Searcher.heuristic`,
  `WikiSearch.guessLang`, `WikiSearch.Searcher.detectLang` translate the
  corresponding declarations of `main.go`.
* `WikiSearch.APISearcher.heuristic` translates the API-server copy.
* `WikiSearch.Searcher.fetch` / `WikiSearch.Searcher.Search` give a
  sequentialised, oracle-parameterised executable model of the search
  (every HTTP exchange is an oracle value; the concurrent goroutines are
  run in one fixed order, which is one legal schedule of the Go code).
* namespace `Atomic` models the individual atomic operations of `fetch`
  (`sync.Map` loads/stores, `LoadOrStore`, the `found` compare-and-swap)
  as a small-step transition system over arbitrary interleavings.
-/

namespace WikiSearch

/-- The supported language editions: the keys of the `wikiAPIs` map of
`main.go` (the API server uses the identical `apiWikiAPIs` map). -/
def wikiLangs : List String := ["en", "ru", "de", "fr", "es", "it", "pt", "uk"]

/-- `WikiNode` of `main.go`. The `Index` field (transient slot inside
`container/heap`, semantically meaningless) is omitted; `Priority` is kept. -/
structure WikiNode where
  title : String
  lang : String
  priority : Int
deriving DecidableEq

/-- Go `unicode.ToLower`, restricted to the alphabets this repository
handles: ASCII A-Z and the Russian Cyrillic А-Я / Ё (titles of the eight
supported editions). Implemented directly on characters so that concrete
runs reduce inside the kernel. -/
def lowerChar (c : Char) : Char :=
  if 65 ≤ c.toNat ∧ c.toNat ≤ 90 then Char.ofNat (c.toNat + 32)
  else if 0x410 ≤ c.toNat ∧ c.toNat ≤ 0x42F then Char.ofNat (c.toNat + 32)
  else if c.toNat = 0x401 then Char.ofNat 0x451
  else c

/-- Go `strings.ToLower` (see `lowerChar` for the handled alphabets). -/
def strToLower (s : String) : String := ⟨s.data.map lowerChar⟩

/-- `WikiNode.Key`: the lower-cased `lang + ":" + title` identity key. -/
def WikiNode.Key (n : WikiNode) : String := strToLower (n.lang ++ ":" ++ n.title)

/-- Splitting a character list at every whitespace character. -/
def splitWhite : List Char → List (List Char)
  | [] => [[]]
  | c :: rest =>
    let r := splitWhite rest
    if c.isWhitespace then [] :: r
    else match r with
      | [] => [[c]]
      | w :: ws => (c :: w) :: ws

/-- Go `strings.Fields`: whitespace-separated tokens, empty tokens dropped. -/
def strFields (s : String) : List String :=
  ((splitWhite s.data).map (fun cs => String.mk cs)).filter (fun w => w ≠ "")

/-- `sub` is a prefix of `hay` (character lists). -/
def leadsList : List Char → List Char → Bool
  | [], _ => true
  | _ :: _, [] => false
  | a :: as, b :: bs => a == b && leadsList as bs

/-- `sub` occurs somewhere inside `hay` (character lists). -/
def containsList : List Char → List Char → Bool
  | hay, sub =>
    if leadsList sub hay then true
    else match hay with
      | [] => false
      | _ :: rest => containsList rest sub

/-- Go `strings.Contains s sub`: `sub` occurs as a substring of `s`
(the empty string is contained in every string). -/
def containsSub (s sub : String) : Bool := containsList s.data sub.data

/-- UTF-8 byte count of one character (what Go `len` adds up). -/
def charBytes (c : Char) : Nat :=
  if c.toNat < 0x80 then 1
  else if c.toNat < 0x800 then 2
  else if c.toNat < 0x10000 then 3
  else 4

/-- Go `len` on a string: its UTF-8 byte length. -/
def strBytes (s : String) : Nat := (s.data.map charBytes).sum

/-- The word-set construction of `NewSearcher` / `Search`: lower-cased
whitespace tokens of byte length > 2, collected into a set (a Go
`map[string]bool`, modelled as a duplicate-free list). -/
def mkWords (title : String) : List String :=
  ((strFields (strToLower title)).filter (fun w => decide (2 < strBytes w))).eraseDups

/-- The heuristic-relevant fields of `Searcher` (and of `APISearcher`,
whose fields are identical): resolved start/target languages and the two
word sets recomputed by `Search` after language detection. -/
structure SearchConfig where
  startLang : String
  targetLang : String
  startWords : List String
  targetWords : List String

namespace Searcher

/-- `Searcher.heuristic` of `main.go` (lines 153-203): base score 100,
additive adjustments; direction `"F"` targets the END node's words and
language, `"B"` the START node's. `len` in Go is the UTF-8 byte length. -/
def heuristic (s : SearchConfig) (title lang dir : String) : Int :=
  let score : Int := 100
  let titleLower := strToLower title
  let words := if dir = "F" then s.targetWords else s.startWords
  let targetLang := if dir = "F" then s.targetLang else s.startLang
  let score := if lang = targetLang then score - 25 else score
  let score := (strFields titleLower).foldl
    (fun sc w => if decide (2 < strBytes w) && words.contains w then sc - 40 else sc) score
  let score := words.foldl
    (fun sc w => if containsSub titleLower w then sc - 20 else sc) score
  let score := if lang = "en" ∨ lang = "ru" then score - 10 else score
  let score := if strBytes title < 20 then score - 5 else score
  let score := if strBytes title > 60 then score + 15 else score
  score

end Searcher

namespace APISearcher

/-- `APISearcher.heuristic` of the API server source (lines 323-366):
translated separately from its own source text. -/
def heuristic (s : SearchConfig) (title lang dir : String) : Int :=
  let score : Int := 100
  let titleLower := strToLower title
  let words := if dir = "F" then s.targetWords else s.startWords
  let targetLang := if dir = "F" then s.targetLang else s.startLang
  let score := if lang = targetLang then score - 25 else score
  let score := (strFields titleLower).foldl
    (fun sc w => if decide (2 < strBytes w) && words.contains w then sc - 40 else sc) score
  let score := words.foldl
    (fun sc w => if containsSub titleLower w then sc - 20 else sc) score
  let score := if lang = "en" ∨ lang = "ru" then score - 10 else score
  let score := if strBytes title < 20 then score - 5 else score
  let score := if strBytes title > 60 then score + 15 else score
  score

end APISearcher

/-- The spec's description of the scorer (section 4.3 of the spec,
restated by claim C6): 100, minus 25 on target-language match, minus 40
per whole lower-cased token of the title (of byte length > 2) that is a
target-side word, minus 20 per target-side word occurring as a substring
of the lower-cased title, minus 10 for hub languages en/ru, minus 5 for
titles shorter than 20 bytes, plus 15 for titles longer than 60 bytes;
forward targets the END side, backward the START side. -/
def specHeuristic (s : SearchConfig) (title lang dir : String) : Int :=
  let titleLower := strToLower title
  let words := if dir = "F" then s.targetWords else s.startWords
  let tLang := if dir = "F" then s.targetLang else s.startLang
  100 - (if lang = tLang then 25 else 0)
    - 40 * ((strFields titleLower).countP
        (fun w => decide (2 < strBytes w) && words.contains w) : Int)
    - 20 * ((words.countP (fun w => containsSub titleLower w)) : Int)
    - (if lang = "en" ∨ lang = "ru" then 10 else 0)
    - (if strBytes title < 20 then 5 else 0)
    + (if strBytes title > 60 then 15 else 0)

/-- `guessLang` of `main.go`: returns "ru" iff some character of the title
lies in the inclusive range 'А'..'я' or is 'ё'/'Ё', else "en". -/
def guessLang (title : String) : String :=
  if title.data.any (fun r =>
      (decide ( 'А' ≤ r) && decide (r ≤ 'я')) || decide (r = 'ё') || decide (r = 'Ё'))
  then "ru" else "en"

/-- The candidate list built at the top of `detectLang`:
`langs := []string{guessed}` then the other one of ru/en is appended. -/
def detectCandidates (title : String) : List String :=
  let g := guessLang title
  [g] ++ (if g = "ru" then ["en"] else ["ru"])

/-- A page of a probe response, as decoded in the `detectLang` goroutine
(`title` and the `missing` flag). -/
structure DetectPage where
  title : String
  missing : Bool
deriving DecidableEq

/-- A decoded probe response: the `query.pages` object, page-id string to
page, in the iteration order of one schedule. -/
abbrev DetectResp := List (String × DetectPage)

/-- A probe oracle: the outcome of the HTTP probe of one language
endpoint. `none` covers a transport error, a decode failure, or a probe
that did not deliver its result before the 500ms deadline. -/
abbrev Probe := String → Option DetectResp

/-- The success scan of a `detectLang` goroutine:
`for id, page := range pages { if id != "-1" && !page.Missing { ... } }`. -/
def pageHit (resp : DetectResp) : Option String :=
  resp.findSome? (fun pr => if pr.1 ≠ "-1" ∧ pr.2.missing = false then some pr.2.title else none)

namespace Searcher

/-- `Searcher.detectLang` of `main.go`: probe the candidate languages and
return the first candidate, in candidate-list order, whose probe
succeeded; `("", "")` when none did. (The Go code collects the finished
probes into `foundLangs` and then scans `langs` in order, which is the
same as an in-order `findSome?` over the collected outcomes.) -/
def detectLang (probe : Probe) (title : String) : String × String :=
  match (detectCandidates title).findSome?
      (fun l => (probe l).bind (fun resp => (pageHit resp).map (fun t => (l, t)))) with
  | some r => r
  | none => ("", "")

/-- The use of `detectLang` inside `Search`: the detected pair replaces
the default `(lang, title)` only when the detected language is nonempty. -/
def resolveTitle (probe : Probe) (lang title : String) : String × String :=
  let r := detectLang probe title
  if r.1 = "" then (lang, title) else r

end Searcher

/-- Unicode Cyrillic block membership (U+0400 - U+04FF), the plain reading
of "any Cyrillic character" in the spec's prober description. -/
def specCyrillic (c : Char) : Bool :=
  decide (0x400 ≤ c.toNat) && decide (c.toNat ≤ 0x4FF)

/-- Claim C8's candidate rule, as written: `[ru, en]` if the title
contains any Cyrillic character, else `[en, ru]`. -/
def specCandidates (title : String) : List String :=
  if title.data.any specCyrillic then ["ru", "en"] else ["en", "ru"]

/-- Decimal digits to a number; `none` on an empty or non-digit list. -/
def digitsToNat (ds : List Char) : Option Nat :=
  if ds.isEmpty then none
  else ds.foldl
    (fun acc c => acc.bind (fun a =>
      if c.isDigit then some (a * 10 + (c.toNat - 48)) else none))
    (some 0)

/-- Integer parse of an id string (sign, then decimal digits). -/
def strToIntQ (s : String) : Option Int :=
  match s.data with
  | '-' :: ds => (digitsToNat ds).map (fun n => -(n : Int))
  | ds => (digitsToNat ds).map (fun n => (n : Int))

/-- Claim C8's probe-success rule, as written: some page has a
non-negative page-id (the id string parses as an integer ≥ 0) and the
`missing` flag unset. -/
def specPageHit (resp : DetectResp) : Option String :=
  resp.findSome? (fun pr =>
    if ((match strToIntQ pr.1 with | some n => decide (0 ≤ n) | none => false) && !pr.2.missing)
    then some pr.2.title else none)

/-- Claim C8's resolution, as written: first successful candidate in
candidate-list order, else the `(default-lang, raw-title)` fallback. -/
def specResolveTitle (probe : Probe) (lang title : String) : String × String :=
  match (specCandidates title).findSome?
      (fun l => (probe l).bind (fun resp => (specPageHit resp).map (fun t => (l, t)))) with
  | some r => r
  | none => (lang, title)

/-- Claim C8 amended, candidate part: `[ru, en]` iff the title contains a
character of 'А'..'я' or 'ё'/'Ё' (the Russian alphabet test the code
performs), else `[en, ru]`. -/
def amendedCandidates (title : String) : List String :=
  if title.data.any (fun r =>
      (decide ( 'А' ≤ r) && decide (r ≤ 'я')) || decide (r = 'ё') || decide (r = 'Ё'))
  then ["ru", "en"] else ["en", "ru"]

/-- Claim C8 amended, in full: candidates by the Russian-alphabet test;
the first candidate in order whose response has a page with id string
different from "-1" and `missing` unset wins; otherwise the search
proceeds with `(default-lang, raw-title)`. -/
def amendedResolveTitle (probe : Probe) (lang title : String) : String × String :=
  match (amendedCandidates title).findSome?
      (fun l => (probe l).bind (fun resp => (pageHit resp).map (fun t => (l, t)))) with
  | some r => r
  | none => (lang, title)

/-! ## Sequential executable model of `fetch` / `buildPath` / `Search`

The Go search runs its HTTP expansions in goroutines; the model below runs
them one after the other in a fixed order (round-0 forward first, then
backward; within a round all forward batches, then all backward batches).
This is one legal schedule of the concurrent program: each `fetch` body is
a sequence of atomic `sync.Map` / `atomic.Bool` operations, so executing
whole `fetch` calls back to back is an admissible interleaving. -/

/-- A visited map (`sync.Map` from node key to `*WikiNode`): association
list, the most recent binding for a key shadows the older ones. The Go
root sentinel `(*WikiNode)(nil)` is `none`. -/
abbrev VMap := List (String × Option WikiNode)

/-- One decoded page of a `WikiResponse`: canonical title, outgoing links
(`links`), incoming links (`linkshere`), and language links already
decoded to `(lang, title)` pairs. -/
structure Page where
  title : String
  links : List String
  linksHere : List String
  langLinks : List (String × String)
deriving DecidableEq

/-- The observable outcome of one `fetch` HTTP exchange.
`noResp` is `client.Do` returning an error (transport failure, timeout or
context cancellation). `resp status body` is a delivered HTTP response:
`body = none` when `json.Decoder.Decode` fails, `body = some pages` when
it yields a `WikiResponse` (the Go code never reads the status code). -/
inductive FetchReply where
  | noResp
  | resp (status : Nat) (body : Option (List Page))

/-- The HTTP world seen by `fetch`: one reply per `(titles, lang, dir)`. -/
abbrev Oracle := List String → String → String → FetchReply

/-- The mutable search state of a `Searcher`: the two visited maps, the
`found` flag, the stored result, the claimed meeting node, and the request
counter. `decOK` / `decFail` are ghost observation counters (calls whose
body decoded / calls whose body failed to decode); the Go code holds only
`reqCount`, incremented right after `client.Do` succeeds. -/
structure SeqState where
  visitedF : VMap
  visitedB : VMap
  found : Bool
  result : List WikiNode
  meeting : Option WikiNode
  reqCount : Nat
  decOK : Nat
  decFail : Nat
deriving DecidableEq

/-- Own-side visited map for a direction string (`"F"` or `"B"`). -/
def ownMap (st : SeqState) (dir : String) : VMap :=
  if dir = "F" then st.visitedF else st.visitedB

/-- Opposite-side visited map for a direction string. -/
def otherMap (st : SeqState) (dir : String) : VMap :=
  if dir = "F" then st.visitedB else st.visitedF

/-- Replace the own-side visited map of a direction. -/
def setOwnMap (st : SeqState) (dir : String) (m : VMap) : SeqState :=
  if dir = "F" then { st with visitedF := m } else { st with visitedB := m }

/-- The forward half of `buildPath`: repeatedly prepend the current node
and step to its stored parent in `visitedF`; stop when the entry is
absent or the nil sentinel. The Go loop has no bound; `fuel` cuts the
model off (the list is silently truncated when fuel runs out, which the
termination hypotheses of the theorems below exclude). -/
def fwdSteps : Nat → VMap → WikiNode → List WikiNode
  | 0, _, curr => [curr]
  | fuel + 1, v, curr =>
    match v.lookup curr.Key with
    | some (some p) => fwdSteps fuel v p ++ [curr]
    | _ => [curr]

/-- The backward half of `buildPath`: append the current node and step to
its stored parent in `visitedB`. -/
def bwdSteps : Nat → VMap → WikiNode → List WikiNode
  | 0, _, curr => [curr]
  | fuel + 1, v, curr =>
    match v.lookup curr.Key with
    | some (some p) => curr :: bwdSteps fuel v p
    | _ => [curr]

/-- `Searcher.buildPath`: forward walk from the meeting node, then the
backward walk from `visitedB[meet]` when that entry is a real parent. -/
def buildPath (fuel : Nat) (vF vB : VMap) (meet : WikiNode) : List WikiNode :=
  let fwd := fwdSteps fuel vF meet
  let bwd := match vB.lookup meet.Key with
    | some (some p) => bwdSteps fuel vB p
    | _ => []
  fwd ++ bwd

/-- Intermediate accumulator of one `fetch` body: current state, the
`newNodes` slice, and whether the fetch has executed one of its
`return nil` statements (which discards `newNodes`). -/
structure FetchAcc where
  st : SeqState
  newNodes : List WikiNode
  stopped : Bool

namespace Searcher

/-- Processing of one discovered child inside `fetch` (both the
`page.Links` and the `page.LangLinks` loops): meeting check against the
opposite map first, then the compare-and-swap claim, then the
`LoadOrStore` insertion; a lost CAS falls through to the insertion. -/
def processChild (fuel : Nat) (dir : String) (parent child : WikiNode)
    (acc : FetchAcc) : FetchAcc :=
  if acc.stopped then acc
  else
    let key := child.Key
    let tryInsert : FetchAcc :=
      if ((ownMap acc.st dir).lookup key).isSome then acc
      else
        { st := setOwnMap acc.st dir ((key, some parent) :: ownMap acc.st dir),
          newNodes := acc.newNodes ++ [child], stopped := false }
    if ((otherMap acc.st dir).lookup key).isSome then
      if acc.st.found then tryInsert
      else
        let st1 := setOwnMap acc.st dir ((key, some parent) :: ownMap acc.st dir)
        let st2 := { st1 with found := true }
        let st3 := { st2 with
          meeting := some child,
          result := buildPath fuel st2.visitedF st2.visitedB child }
        { st := st3, newNodes := [], stopped := true }
    else tryInsert

/-- Processing of one `Page` of a decoded response: the initial
`if s.found.Load() { return nil }` guard, the link loop (outgoing links
forward, incoming links backward), then the language-link loop with the
supported-language / empty-title filter. -/
def processPage (cfg : SearchConfig) (fuel : Nat) (dir lang : String)
    (acc : FetchAcc) (pg : Page) : FetchAcc :=
  if acc.stopped then acc
  else if acc.st.found then { acc with newNodes := [], stopped := true }
  else
    let parent : WikiNode := ⟨pg.title, lang, 0⟩
    let links := if dir = "F" then pg.links else pg.linksHere
    let acc := links.foldl
      (fun a t => processChild fuel dir parent ⟨t, lang, heuristic cfg t lang dir⟩ a) acc
    pg.langLinks.foldl
      (fun a ll =>
        if !(wikiLangs.contains ll.1) || ll.2 = "" then a
        else processChild fuel dir parent ⟨ll.2, ll.1, heuristic cfg ll.2 ll.1 dir⟩ a) acc

/-- `Searcher.fetch`: early return when `found` is already set or the
batch is empty; otherwise one HTTP exchange. A transport error returns
nothing; once a response is delivered `reqCount` is incremented (before
the decode attempt, and regardless of the HTTP status, which the code
never reads); a decode failure then returns nothing; a decoded response
is processed page by page. -/
def fetch (ora : Oracle) (cfg : SearchConfig) (fuel : Nat) (st : SeqState)
    (titles : List String) (lang dir : String) : SeqState × List WikiNode :=
  if st.found || titles.isEmpty then (st, [])
  else
    match ora titles lang dir with
    | .noResp => (st, [])
    | .resp _ none =>
      ({ st with reqCount := st.reqCount + 1, decFail := st.decFail + 1 }, [])
    | .resp _ (some pages) =>
      let st := { st with reqCount := st.reqCount + 1, decOK := st.decOK + 1 }
      let acc := pages.foldl (processPage cfg fuel dir lang)
        { st := st, newNodes := [], stopped := false }
      (acc.st, if acc.stopped then [] else acc.newNodes)

end Searcher

/-- Removal of the minimum-priority node from a frontier list (the
model's stand-in for `heap.Pop`; ties go to the earliest-pushed node). -/
def popMin : List WikiNode → Option (WikiNode × List WikiNode)
  | [] => none
  | n :: rest =>
    match popMin rest with
    | none => some (n, rest)
    | some (m, rest1) =>
      if n.priority ≤ m.priority then some (n, rest) else some (m, n :: rest1)

/-- Drain up to `maxPerRound` nodes from a frontier in priority order. -/
def drainFrontier : Nat → List WikiNode → List WikiNode × List WikiNode
  | 0, pq => ([], pq)
  | bound + 1, pq =>
    match popMin pq with
    | none => ([], pq)
    | some (n, rest) =>
      let r := drainFrontier bound rest
      (n :: r.1, r.2)

/-- Group drained nodes by language, first-appearance order (the Go code
uses a `map[string][]string`; map iteration order is scheduler-chosen,
this model fixes one). -/
def groupByLang (nodes : List WikiNode) : List (String × List String) :=
  nodes.foldl
    (fun acc n =>
      if acc.any (fun p => p.1 = n.lang) then
        acc.map (fun p => if p.1 = n.lang then (p.1, p.2 ++ [n.title]) else p)
      else acc ++ [(n.lang, [n.title])])
    []

/-- Chunk a title list into batches of `batchSize` (50). -/
def chunksAux (size : Nat) : Nat → List String → List (List String)
  | 0, _ => []
  | _, [] => []
  | fuel + 1, l => l.take size :: chunksAux size fuel (l.drop size)

/-- The batches of one direction of one round: group by language, chunk
each language's titles into slices of at most 50. -/
def mkBatches (nodes : List WikiNode) : List (String × List String) :=
  (groupByLang nodes).flatMap
    (fun p => (chunksAux 50 p.2.length p.2).map (fun c => (p.1, c)))

namespace Searcher

/-- Run all batches of one direction of one round (the Go code dispatches
them in goroutines and awaits all; the model runs them in order),
collecting the successor nodes of the calls that returned any. -/
def runBatches (ora : Oracle) (cfg : SearchConfig) (fuel : Nat)
    (st : SeqState) (dir : String) (batches : List (String × List String)) :
    SeqState × List WikiNode :=
  batches.foldl
    (fun acc b =>
      let r := fetch ora cfg fuel acc.1 b.2 b.1 dir
      (r.1, if r.2.length > 0 then acc.2 ++ r.2 else acc.2))
    (st, [])

/-- The round loop of `Search`: while `found` is unset and some frontier
is nonempty, drain up to 250 nodes per direction, expand all forward
batches then all backward batches, and push the new successors after the
round barrier. `rounds` is the model's stand-in for the 10s context
deadline: fuel exhaustion returns the current result, exactly like the
`ctx.Done()` branch. -/
def roundLoop (ora : Oracle) (cfg : SearchConfig) (fuel : Nat) :
    Nat → SeqState → List WikiNode → List WikiNode → SeqState
  | 0, st, _, _ => st
  | rounds + 1, st, pqF, pqB =>
    if st.found || (pqF.isEmpty && pqB.isEmpty) then st
    else
      let dF := drainFrontier 250 pqF
      let dB := drainFrontier 250 pqB
      let rF := runBatches ora cfg fuel st "F" (mkBatches dF.1)
      let rB := runBatches ora cfg fuel rF.1 "B" (mkBatches dB.1)
      if rB.1.found then rB.1
      else roundLoop ora cfg fuel rounds rB.1 (dF.2 ++ rF.2) (dB.2 ++ rB.2)

end Searcher

/-- The start node as resolved by `Search` (detected language and
canonical title when the probe succeeded, the defaults otherwise). -/
def resolvedStartNode (probe : Probe) (lang startT : String) : WikiNode :=
  let r := Searcher.resolveTitle probe lang startT
  ⟨r.2, r.1, 0⟩

/-- The end node as resolved by `Search`. -/
def resolvedEndNode (probe : Probe) (lang endT : String) : WikiNode :=
  let r := Searcher.resolveTitle probe lang endT
  ⟨r.2, r.1, 0⟩

/-- The heuristic configuration recomputed by `Search` after language
detection. -/
def resolvedConfig (probe : Probe) (lang startT endT : String) : SearchConfig :=
  let s := Searcher.resolveTitle probe lang startT
  let e := Searcher.resolveTitle probe lang endT
  ⟨s.1, e.1, mkWords s.2, mkWords e.2⟩

/-- What `Search` returns, plus the final mutable state. -/
structure SearchOut where
  path : List WikiNode
  st : SeqState

namespace Searcher

/-- `Searcher.Search` of `main.go`: resolve both titles, recompute the
word sets, seed both visited maps with the root sentinel, return
`[startNode]` when the resolved `(title, lang)` pairs are equal (the
code's case-sensitive check), otherwise run the two round-0 expansions
and enter the round loop. -/
def Search (probe : Probe) (ora : Oracle) (fuel rounds : Nat)
    (startT endT lang : String) : SearchOut :=
  let s := resolveTitle probe lang startT
  let e := resolveTitle probe lang endT
  let cfg : SearchConfig := ⟨s.1, e.1, mkWords s.2, mkWords e.2⟩
  let startNode : WikiNode := ⟨s.2, s.1, 0⟩
  let endNode : WikiNode := ⟨e.2, e.1, 0⟩
  let st0 : SeqState :=
    { visitedF := [(startNode.Key, none)], visitedB := [(endNode.Key, none)],
      found := false, result := [], meeting := none,
      reqCount := 0, decOK := 0, decFail := 0 }
  if s.2 = e.2 ∧ s.1 = e.1 then ⟨[startNode], st0⟩
  else
    let rF := fetch ora cfg fuel st0 [s.2] s.1 "F"
    let rB := fetch ora cfg fuel rF.1 [e.2] e.1 "B"
    if rB.1.found then ⟨rB.1.result, rB.1⟩
    else
      let stF := roundLoop ora cfg fuel rounds rB.1 rF.2 rB.2
      ⟨stF.result, stF⟩

end Searcher

/-! ## Atomic small-step model of the shared state

Claims C3, C4 and C9 are about what concurrent `fetch` bodies may do to
the shared `visitedF` / `visitedB` / `found` / meeting state under ANY
interleaving. The model below reifies exactly the atomic operations the
per-child code of `fetch` performs, in their source order:

    if _, exists := other.Load(key); exists {        -- checkOther
        if s.found.CompareAndSwap(false, true) {     -- tryCas
            own.Store(key, &parent)                  -- doStore
            ... s.result = s.buildPath(*child) ...   --   (meeting recorded)
            return nil
        }
    }
    if _, loaded := own.LoadOrStore(key, &parent); !loaded { ... }  -- insert

A `Task` is the processing of one discovered child by one goroutine; its
`pc` is the next atomic operation it will execute. A schedule is a list
of task indices; `run` executes them one atomic step at a time. -/

namespace Atomic

/-- The shared state touched by the per-child code of `fetch`. -/
structure AState where
  visitedF : WikiSearch.VMap
  visitedB : WikiSearch.VMap
  found : Bool
  meeting : Option WikiNode
deriving DecidableEq

/-- Program counter of a child-processing task. -/
inductive Pc where
  | checkOther
  | tryCas
  | doStore
  | insert
  | done
deriving DecidableEq

/-- One goroutine processing one discovered child: its direction, the
child's key, the parent node it would record, and the child node itself
(the meeting node it would claim). `won` is the ghost record of having
won the compare-and-swap. -/
structure Task where
  dir : String
  key : String
  parent : WikiNode
  child : WikiNode
  pc : Pc
  won : Bool
deriving DecidableEq

/-- Own-side visited map of a task direction. -/
def ownM (st : AState) (dir : String) : WikiSearch.VMap :=
  if dir = "F" then st.visitedF else st.visitedB

/-- Opposite-side visited map of a task direction. -/
def otherM (st : AState) (dir : String) : WikiSearch.VMap :=
  if dir = "F" then st.visitedB else st.visitedF

/-- Replace the own-side visited map of a task direction. -/
def setOwnM (st : AState) (dir : String) (m : WikiSearch.VMap) : AState :=
  if dir = "F" then { st with visitedF := m } else { st with visitedB := m }

/-- Execute the next atomic operation of one task. `checkOther` is the
`other.Load`; `tryCas` the `found.CompareAndSwap` (a loser falls through
to the `LoadOrStore`); `doStore` the winner's unconditional `own.Store`
together with its exclusive recording of the meeting node; `insert` the
`own.LoadOrStore`, a no-op when the key is already present. -/
def stepTask (st : AState) (t : Task) : AState × Task :=
  match t.pc with
  | .checkOther =>
    if ((otherM st t.dir).lookup t.key).isSome then (st, { t with pc := .tryCas })
    else (st, { t with pc := .insert })
  | .tryCas =>
    if st.found then (st, { t with pc := .insert })
    else ({ st with found := true }, { t with pc := .doStore, won := true })
  | .doStore =>
    let st1 := setOwnM st t.dir ((t.key, some t.parent) :: ownM st t.dir)
    ({ st1 with meeting := some t.child }, { t with pc := .done })
  | .insert =>
    if ((ownM st t.dir).lookup t.key).isSome then (st, { t with pc := .done })
    else (setOwnM st t.dir ((t.key, some t.parent) :: ownM st t.dir), { t with pc := .done })
  | .done => (st, t)

/-- A system: the shared state plus the outstanding tasks. -/
structure Sys where
  st : AState
  tasks : List Task
deriving DecidableEq

/-- Let task `i` execute one atomic operation (no-op for a bad index). -/
def step (sys : Sys) (i : Nat) : Sys :=
  match sys.tasks[i]? with
  | none => sys
  | some t =>
    let r := stepTask sys.st t
    ⟨r.1, sys.tasks.set i r.2⟩

/-- Run a schedule: a list of task indices, executed left to right. -/
def run (sys : Sys) : List Nat → Sys
  | [] => sys
  | i :: rest => run (step sys i) rest

/-- Number of tasks that have won the compare-and-swap. -/
def winCount (sys : Sys) : Nat := (sys.tasks.filter (fun t => t.won)).length

/-- Whether the parent walk from a node reaches a stopping entry (root
sentinel or absent key) within `fuel` steps; the Go `buildPath` loop on
this map terminates on this start node iff this holds for some fuel. -/
def walkEnds : Nat → WikiSearch.VMap → WikiNode → Bool
  | 0, _, _ => false
  | fuel + 1, v, curr =>
    match v.lookup curr.Key with
    | some (some p) => walkEnds fuel v p
    | _ => true

end Atomic

/-! ## Concrete scenarios used by counterexamples and witnesses -/

/-- A probe world in which every language probe fails (times out): both
resolutions fall back to `(default-lang, raw-title)`. -/
def probeNone : Probe := fun _ => none

/-- Transport for the C1 counterexample: expanding the start title "A"
delivers a page whose canonical title is "Ared" (a server-side redirect,
`redirects=1` is set on every request), which links to "M"; expanding the
end title "B" backward delivers the page "B" with incoming link "M". -/
def redirOra : Oracle := fun titles lang dir =>
  if titles = ["A"] ∧ lang = "en" ∧ dir = "F" then
    .resp 200 (some [⟨"Ared", ["M"], [], []⟩])
  else if titles = ["B"] ∧ lang = "en" ∧ dir = "B" then
    .resp 200 (some [⟨"B", [], ["M"], []⟩])
  else .noResp

/-- Transport for the C1 witness: no redirects, the start page "A" links
to "M" and the end page "B" is linked from "M". -/
def cleanOra : Oracle := fun titles lang dir =>
  if titles = ["A"] ∧ lang = "en" ∧ dir = "F" then
    .resp 200 (some [⟨"A", ["M"], [], []⟩])
  else if titles = ["B"] ∧ lang = "en" ∧ dir = "B" then
    .resp 200 (some [⟨"B", [], ["M"], []⟩])
  else .noResp

/-- Transport for the C2 counterexample: both "Cat" and "cat" exist and
have no links, so the search exhausts after the two round-0 calls. -/
def catOra : Oracle := fun titles lang dir =>
  if titles = ["Cat"] ∧ lang = "en" ∧ dir = "F" then
    .resp 200 (some [⟨"Cat", [], [], []⟩])
  else if titles = ["cat"] ∧ lang = "en" ∧ dir = "B" then
    .resp 200 (some [⟨"cat", [], [], []⟩])
  else .noResp

/-- Transport for the C5 counterexample: the forward round-0 call
delivers a response whose body fails to decode; the backward call
succeeds with a linkless page. -/
def decFailOra : Oracle := fun titles lang dir =>
  if titles = ["A"] ∧ lang = "en" ∧ dir = "F" then .resp 200 none
  else if titles = ["B"] ∧ lang = "en" ∧ dir = "B" then
    .resp 200 (some [⟨"B", [], [], []⟩])
  else .noResp

/-- Transport for the C7 counterexample: a non-2xx response (HTTP 500)
whose body nevertheless decodes to a page with a link. -/
def err500Ora : Oracle := fun _ _ _ => .resp 500 (some [⟨"X", ["L"], [], []⟩])

/-- A plain heuristic configuration for direct `fetch` calls. -/
def plainCfg : SearchConfig := ⟨"en", "en", [], []⟩

/-- An empty search state for direct `fetch` calls. -/
def plainSt : SeqState :=
  { visitedF := [], visitedB := [], found := false, result := [],
    meeting := none, reqCount := 0, decOK := 0, decFail := 0 }

/-- Node (en, K) of the racy meeting scenario. -/
def nodeK : WikiNode := ⟨"K", "en", 0⟩

/-- Node (en, P) of the racy meeting scenario. -/
def nodeP : WikiNode := ⟨"P", "en", 0⟩

/-- Node (en, A) of the racy meeting scenario. -/
def nodeA : WikiNode := ⟨"A", "en", 0⟩

/-- Node (en, Z) of the racy meeting scenario. -/
def nodeZ : WikiNode := ⟨"Z", "en", 0⟩

/-- The racy meeting scenario. Forward side has expanded its seed S and
the node A discovered from it; backward side has expanded its seed E and
the node Z. Four child-processing tasks are in flight, in program order
of the executions that spawned them: the forward expansion of A
discovered K, the backward expansion of Z discovered K, the forward
expansion of K discovered P, and the forward expansion of P rediscovered
K (K and P link to each other). Every task is exactly the per-child code
of `fetch` for that page. -/
def kpSys : Atomic.Sys :=
  { st :=
    { visitedF := [("en:a", some ⟨"S", "en", 0⟩), ("en:s", none)],
      visitedB := [("en:z", some ⟨"E", "en", 0⟩), ("en:e", none)],
      found := false, meeting := none },
    tasks :=
      [ ⟨"F", nodeK.Key, nodeA, nodeK, .checkOther, false⟩,
        ⟨"B", nodeK.Key, nodeZ, nodeK, .checkOther, false⟩,
        ⟨"F", nodeP.Key, nodeK, nodeP, .checkOther, false⟩,
        ⟨"F", nodeK.Key, nodeP, nodeK, .checkOther, false⟩ ] }

/-- Schedule of the racy meeting scenario, up to and including the
winning compare-and-swap of the fourth task: the two opposite-side `Load`
operations on key en:k both run before either `LoadOrStore`, so the
meeting on K is hidden and K enters both maps; later the forward
expansion of P rediscovers K on the backward map and wins the CAS. -/
def kpSchedPre : List Nat := [0, 1, 0, 1, 2, 2, 3, 3]

/-- The full schedule: the winner's `own.Store` runs after `found` was
set. -/
def kpSched : List Nat := kpSchedPre ++ [3]

/-- A one-task system for the C4 witness: the backward map already holds
en:k, so the single forward task meets and claims it. -/
def casSys : Atomic.Sys :=
  { st :=
    { visitedF := [("en:s", none)],
      visitedB := [("en:k", some ⟨"E", "en", 0⟩), ("en:e", none)],
      found := false, meeting := none },
    tasks := [⟨"F", "en:k", ⟨"S", "en", 0⟩, nodeK, .checkOther, false⟩] }

/-- A probe world with a page of id "-2" and `missing` unset on the en
endpoint: accepted by the code's `id != "-1"` test, rejected by the
spec's non-negative-id reading. -/
def negIdProbe : Probe := fun l =>
  if l = "en" then some [("-2", ⟨"T", false⟩)] else none

/-- A transport in which every call fails before a response arrives. -/
def noRespOra : Oracle := fun _ _ _ => .noResp

/-! ## Invariants -/

/-- The root sentinel (`nil` parent) is stored at most for the seeded
key: every key whose visited entry is the sentinel is `k0`. -/
def NilOnly (v : VMap) (k0 : String) : Prop :=
  ∀ k, v.lookup k = some none → k = k0

/-- Invariant of the sequential search state, relative to the two seeded
root keys and the buildPath fuel: the sentinel appears only at the seeds;
once `found` is set a meeting node is recorded, the stored result is
`buildPath` of the current maps at that node, and the meeting key is
present on both sides; and the request counter equals delivered
responses (decoded plus undecodable). -/
def SInv (sk ek : String) (fuel : Nat) (st : SeqState) : Prop :=
  NilOnly st.visitedF sk ∧ NilOnly st.visitedB ek ∧
  (st.found = true → ∃ m, st.meeting = some m ∧
    st.result = buildPath fuel st.visitedF st.visitedB m ∧
    (st.visitedF.lookup m.Key).isSome = true ∧
    (st.visitedB.lookup m.Key).isSome = true) ∧
  st.reqCount = st.decOK + st.decFail

/-- Invariant of a `fetch` accumulator: the state invariant, plus: while
the fetch has not executed a `return nil`, the `found` flag is still
unset (the fetch starts only when `found` is unset, and the only code
setting it, the winning claim, stops the fetch at once). -/
def AccInv (sk ek : String) (fuel : Nat) (acc : FetchAcc) : Prop :=
  SInv sk ek fuel acc.st ∧ (acc.stopped = false → acc.st.found = false)

namespace Atomic

/-- Invariant of the atomic system: `found` is set iff some task has won
the compare-and-swap; at most one task ever wins; no meeting node is
recorded before a winner exists; a task about to execute the winning
`Store` has won; a winner that finished recorded the meeting node and
its own parent for the meeting key; and only a winner is at or past the
`Store`. -/
def Inv (sys : Sys) : Prop :=
  (sys.st.found = true ↔ 1 ≤ winCount sys) ∧
  winCount sys ≤ 1 ∧
  (winCount sys = 0 → sys.st.meeting = none) ∧
  (∀ t ∈ sys.tasks, t.pc = Pc.doStore → t.won = true) ∧
  (∀ t ∈ sys.tasks, t.won = true → t.pc = Pc.done →
    sys.st.meeting = some t.child ∧
    (ownM sys.st t.dir).lookup t.key = some (some t.parent)) ∧
  (∀ t ∈ sys.tasks, t.won = true → t.pc = Pc.doStore ∨ t.pc = Pc.done) ∧
  (∀ t ∈ sys.tasks, t.won = true → t.pc = Pc.doStore → sys.st.meeting = none)

end Atomic

/-! # Theorems -/

/-- Folding an invariant-preserving step over a list preserves it. -/
theorem foldl_pres {α : Type u} {β : Type v} (P : α → Prop) (f : α → β → α)
    (h : ∀ a b, P a → P (f a b)) :
    ∀ (l : List β) (a : α), P a → P (l.foldl f a) := by
  intro l
  induction l with
  | nil => intro a ha; exact ha
  | cons x xs ih => intro a ha; exact ih (f a x) (h a x ha)

/-- A conditional-subtraction fold is the start value minus the constant
times the number of hits. -/
theorem foldl_if_sub {α : Type u} (c : Int) (p : α → Bool) :
    ∀ (l : List α) (s : Int),
      l.foldl (fun sc w => if p w then sc - c else sc) s = s - c * (l.countP p : Int) := by
  intro l
  induction l with
  | nil => intro s; simp
  | cons x xs ih =>
    intro s
    by_cases h : p x = true
    · simp only [List.foldl_cons, h, if_true, ih, List.countP_cons]
      push_cast
      ring
    · simp only [List.foldl_cons, h, if_false, ih, List.countP_cons]
      push_cast
      ring

/-- Lookup of a freshly prepended binding. -/
theorem lookup_cons_self {β : Type u} (k : String) (v : β) (m : List (String × β)) :
    ((k, v) :: m).lookup k = some v := by
  simp [List.lookup_cons]

/-- Prepending a different key leaves a lookup unchanged. -/
theorem lookup_cons_ne {β : Type u} (k k2 : String) (v : β) (m : List (String × β))
    (h : k ≠ k2) : ((k2, v) :: m).lookup k = m.lookup k := by
  simp [List.lookup_cons, beq_eq_false_iff_ne.mpr h]

/-- Prepending a non-sentinel binding preserves `NilOnly`. -/
theorem nilOnly_cons_some (v : VMap) (k0 k : String) (p : WikiNode)
    (h : NilOnly v k0) : NilOnly ((k, some p) :: v) k0 := by
  intro k2 hl
  by_cases hk : k2 = k
  · subst hk; rw [lookup_cons_self] at hl; simp at hl
  · rw [lookup_cons_ne _ _ _ _ hk] at hl; exact h k2 hl

/-- Prepending preserves presence of a key. -/
theorem lookup_isSome_cons {β : Type u} (k k2 : String) (v : β) (m : List (String × β))
    (h : (m.lookup k).isSome = true) : (((k2, v) :: m).lookup k).isSome = true := by
  by_cases hk : k = k2
  · subst hk; rw [lookup_cons_self]; rfl
  · rw [lookup_cons_ne _ _ _ _ hk]; exact h

/-- Claim C6: for every title, lang and direction, the code's heuristic
equals the spec formula: 100, minus 25 if lang is the target-side
language, minus 40 per whole token of the lower-cased title (byte length
> 2) that is a target-side word, minus 20 per target-side word occurring
as a substring of the lower-cased title, minus 10 if lang is en or ru,
minus 5 if len(title) < 20, plus 15 if len(title) > 60, all stacking;
forward uses the END node's word set and language, backward the START
node's. -/
theorem heuristicMatchesSpecFormula (s : SearchConfig) (title lang dir : String) :
    Searcher.heuristic s title lang dir = specHeuristic s title lang dir := by
  unfold Searcher.heuristic specHeuristic
  dsimp only
  rw [foldl_if_sub, foldl_if_sub]
  split_ifs <;> ring

/-- Claim C10: the CLI searcher's heuristic and the API searcher's
heuristic are extensionally equal on identical configurations. -/
theorem cliAndApiHeuristicsAgree (s : SearchConfig) (title lang dir : String) :
    Searcher.heuristic s title lang dir = APISearcher.heuristic s title lang dir := rfl

/-- Counterexample to claim C8: the Ukrainian letter і (U+0456) is a
Cyrillic character, yet the prober picks candidates `[en, ru]` for the
title "і" where the claim requires `[ru, en]`; and a probe response
whose only page has id "-2" with `missing` unset is accepted by the code
(its test is `id != "-1"`) but has no non-negative page-id, so the
claimed resolution returns the fallback while the code returns the hit. -/
theorem langProberDivergesFromSpec :
    (detectCandidates "і" = ["en", "ru"] ∧ specCandidates "і" = ["ru", "en"]
      ∧ specCyrillic 'і' = true) ∧
    Searcher.resolveTitle negIdProbe "fr" "X" = ("en", "T") ∧
    specResolveTitle negIdProbe "fr" "X" = ("fr", "X") := by decide

/-- Claim C8 (amended): the prober chooses candidates `[ru, en]` iff the
title contains a character in 'А'..'я' or 'ё'/'Ё', else `[en, ru]`, and
resolves to the first candidate in candidate-list order whose probe
response contains a page with id string different from "-1" and the
missing flag unset; if no candidate succeeds (within the deadline), the
search proceeds with `(default-lang, raw-title)`. -/
theorem resolveTitleMatchesAmendedSpec (probe : Probe) (lang title : String) :
    Searcher.resolveTitle probe lang title = amendedResolveTitle probe lang title := by
  unfold Searcher.resolveTitle Searcher.detectLang amendedResolveTitle
  have hcand : detectCandidates title = amendedCandidates title := by
    unfold detectCandidates amendedCandidates guessLang
    by_cases h : title.data.any (fun r =>
        (decide ( 'А' ≤ r) && decide (r ≤ 'я')) || decide (r = 'ё') || decide (r = 'Ё')) = true
    · simp [h]
    · simp [h]
  rw [hcand]
  cases hf : (amendedCandidates title).findSome?
      (fun l => (probe l).bind fun resp => (pageHit resp).map fun t => (l, t)) with
  | none => simp [hf]
  | some r =>
    obtain ⟨l, hl, hfl⟩ := List.exists_of_findSome?_eq_some hf
    rw [Option.bind_eq_some] at hfl
    obtain ⟨resp, _, hmap⟩ := hfl
    rw [Option.map_eq_some'] at hmap
    obtain ⟨t, _, ht⟩ := hmap
    have hlne : l ≠ "" := by
      unfold amendedCandidates at hl
      by_cases hc : title.data.any (fun r =>
          (decide ( 'А' ≤ r) && decide (r ≤ 'я')) || decide (r = 'ё') || decide (r = 'Ё')) = true
      · rw [if_pos hc] at hl
        rcases List.mem_cons.mp hl with rfl | hl2
        · decide
        · rcases List.mem_cons.mp hl2 with rfl | hl3
          · decide
          · cases hl3
      · rw [if_neg hc] at hl
        rcases List.mem_cons.mp hl with rfl | hl2
        · decide
        · rcases List.mem_cons.mp hl2 with rfl | hl3
          · decide
          · cases hl3
    have hne : r.1 ≠ "" := by rw [← ht]; exact hlne
    simp [hf, hne]

/-- `visitedF` after replacing one side's map. -/
theorem setOwnMap_visitedF (st : SeqState) (dir : String) (m : VMap) :
    (setOwnMap st dir m).visitedF = if dir = "F" then m else st.visitedF := by
  by_cases hd : dir = "F" <;> simp [setOwnMap, hd]

/-- `visitedB` after replacing one side's map. -/
theorem setOwnMap_visitedB (st : SeqState) (dir : String) (m : VMap) :
    (setOwnMap st dir m).visitedB = if dir = "F" then st.visitedB else m := by
  by_cases hd : dir = "F" <;> simp [setOwnMap, hd]

/-- Replacing one side's map leaves every other field unchanged. -/
theorem setOwnMap_rest (st : SeqState) (dir : String) (m : VMap) :
    (setOwnMap st dir m).found = st.found ∧ (setOwnMap st dir m).meeting = st.meeting ∧
    (setOwnMap st dir m).result = st.result ∧ (setOwnMap st dir m).reqCount = st.reqCount ∧
    (setOwnMap st dir m).decOK = st.decOK ∧ (setOwnMap st dir m).decFail = st.decFail := by
  by_cases hd : dir = "F" <;> simp [setOwnMap, hd]

/-- Inserting a non-sentinel parent on either side preserves the state
invariant while `found` is unset. -/
theorem sinv_insert (sk ek : String) (fuel : Nat) (st : SeqState) (dir key : String)
    (parent : WikiNode) (h : SInv sk ek fuel st) (hfound : st.found = false) :
    SInv sk ek fuel (setOwnMap st dir ((key, some parent) :: ownMap st dir)) := by
  obtain ⟨h1, h2, _, h4⟩ := h
  refine ⟨?_, ?_, ?_, ?_⟩
  · rw [setOwnMap_visitedF]
    by_cases hd : dir = "F"
    · simp only [hd, if_true]
      simpa [ownMap, hd] using nilOnly_cons_some st.visitedF sk key parent h1
    · simp only [hd, if_false]
      exact h1
  · rw [setOwnMap_visitedB]
    by_cases hd : dir = "F"
    · simp only [hd, if_true]
      exact h2
    · simp only [hd, if_false]
      simpa [ownMap, hd] using nilOnly_cons_some st.visitedB ek key parent h2
  · intro hf
    rw [(setOwnMap_rest st dir _).1, hfound] at hf
    cases hf
  · rw [(setOwnMap_rest st dir _).2.2.2.1, (setOwnMap_rest st dir _).2.2.2.2.1,
      (setOwnMap_rest st dir _).2.2.2.2.2]
    exact h4

/-- One child-processing step of `fetch` preserves the accumulator
invariant. -/
theorem processChild_accInv (sk ek : String) (fuel : Nat) (dir : String)
    (parent child : WikiNode) (acc : FetchAcc) (h : AccInv sk ek fuel acc) :
    AccInv sk ek fuel (Searcher.processChild fuel dir parent child acc) := by
  unfold Searcher.processChild
  by_cases hstop : acc.stopped = true
  · simp only [hstop, if_true]
    exact h
  · have hstop' : acc.stopped = false := by
      cases hsv : acc.stopped
      · rfl
      · exact absurd hsv hstop
    have hfound : acc.st.found = false := h.2 hstop'
    simp only [hstop', Bool.false_eq_true, if_false]
    have hins : AccInv sk ek fuel
        (if ((ownMap acc.st dir).lookup child.Key).isSome = true then acc
         else
           { st := setOwnMap acc.st dir ((child.Key, some parent) :: ownMap acc.st dir),
             newNodes := acc.newNodes ++ [child], stopped := false }) := by
      by_cases hown : ((ownMap acc.st dir).lookup child.Key).isSome = true
      · simp only [hown, if_true]
        exact h
      · simp only [hown, Bool.false_eq_true, if_false]
        refine ⟨sinv_insert sk ek fuel acc.st dir child.Key parent h.1 hfound, ?_⟩
        intro _
        rw [(setOwnMap_rest acc.st dir _).1]
        exact hfound
    by_cases hother : ((otherMap acc.st dir).lookup child.Key).isSome = true
    · simp only [hother, if_true, hfound, Bool.false_eq_true, if_false]
      -- the winning claim
      obtain ⟨⟨h1, h2, _, h4⟩, _⟩ := h
      refine ⟨⟨?_, ?_, ?_, ?_⟩, ?_⟩
      · rw [setOwnMap_visitedF]
        by_cases hd : dir = "F"
        · simp only [hd, if_true]
          simpa [ownMap, hd] using nilOnly_cons_some acc.st.visitedF sk child.Key parent h1
        · simp only [hd, if_false]
          exact h1
      · rw [setOwnMap_visitedB]
        by_cases hd : dir = "F"
        · simp only [hd, if_true]
          exact h2
        · simp only [hd, if_false]
          simpa [ownMap, hd] using nilOnly_cons_some acc.st.visitedB ek child.Key parent h2
      · intro _
        refine ⟨child, rfl, rfl, ?_, ?_⟩
        · by_cases hd : dir = "F"
          · rw [setOwnMap_visitedF]
            simp only [hd, if_true]
            exact lookup_cons_self child.Key (some parent) _ ▸ rfl
          · rw [setOwnMap_visitedF]
            simp only [hd, if_false]
            have : otherMap acc.st dir = acc.st.visitedF := by simp [otherMap, hd]
            rw [← this]
            exact hother
        · by_cases hd : dir = "F"
          · rw [setOwnMap_visitedB]
            simp only [hd, if_true]
            have : otherMap acc.st dir = acc.st.visitedB := by simp [otherMap, hd]
            rw [← this]
            exact hother
          · rw [setOwnMap_visitedB]
            simp only [hd, if_false]
            exact lookup_cons_self child.Key (some parent) _ ▸ rfl
      · rw [(setOwnMap_rest acc.st dir _).2.2.2.1, (setOwnMap_rest acc.st dir _).2.2.2.2.1,
          (setOwnMap_rest acc.st dir _).2.2.2.2.2]
        exact h4
      · intro hc
        cases hc
    · simp only [hother, Bool.false_eq_true, if_false]
      exact hins

/-- One page of a decoded response preserves the accumulator invariant. -/
theorem processPage_accInv (sk ek : String) (cfg : SearchConfig) (fuel : Nat)
    (dir lang : String) (acc : FetchAcc) (pg : Page) (h : AccInv sk ek fuel acc) :
    AccInv sk ek fuel (Searcher.processPage cfg fuel dir lang acc pg) := by
  unfold Searcher.processPage
  by_cases hstop : acc.stopped = true
  · simp only [hstop, if_true]
    exact h
  · have hstop' : acc.stopped = false := by
      cases hsv : acc.stopped
      · rfl
      · exact absurd hsv hstop
    have hfound : acc.st.found = false := h.2 hstop'
    simp only [hstop', Bool.false_eq_true, if_false, hfound]
    refine foldl_pres (AccInv sk ek fuel) _ ?_ pg.langLinks _
      (foldl_pres (AccInv sk ek fuel) _ ?_ _ acc h)
    · intro a ll ha
      by_cases hc : (!(wikiLangs.contains ll.1) || ll.2 = "") = true
      · simp only [hc, if_true]
        exact ha
      · simp only [hc, if_false]
        exact processChild_accInv sk ek fuel dir _ _ a ha
    · intro a t ha
      exact processChild_accInv sk ek fuel dir _ _ a ha

/-- `fetch` preserves the state invariant. -/
theorem fetch_sinv (ora : Oracle) (cfg : SearchConfig) (sk ek : String) (fuel : Nat)
    (st : SeqState) (titles : List String) (lang dir : String) (h : SInv sk ek fuel st) :
    SInv sk ek fuel (Searcher.fetch ora cfg fuel st titles lang dir).1 := by
  unfold Searcher.fetch
  by_cases hg : (st.found || titles.isEmpty) = true
  · simp only [hg, if_true]
    exact h
  · simp only [hg, Bool.false_eq_true, if_false]
    have hfound : st.found = false := by
      cases hsv : st.found
      · rfl
      · rw [hsv] at hg
        simp at hg
    cases ho : ora titles lang dir with
    | noResp => exact h
    | resp status body =>
      cases body with
      | none =>
        obtain ⟨h1, h2, h3, h4⟩ := h
        exact ⟨h1, h2, h3, by simp [h4]; omega⟩
      | some pages =>
        have hacc : AccInv sk ek fuel
            ⟨{ st with reqCount := st.reqCount + 1, decOK := st.decOK + 1 }, [], false⟩ := by
          obtain ⟨h1, h2, h3, h4⟩ := h
          exact ⟨⟨h1, h2, h3, by simp [h4]; omega⟩, fun _ => hfound⟩
        exact (foldl_pres (AccInv sk ek fuel) (Searcher.processPage cfg fuel dir lang)
          (fun a b ha => processPage_accInv sk ek cfg fuel dir lang a b ha) pages _ hacc).1

/-- A round's batch list preserves the state invariant. -/
theorem runBatches_sinv (ora : Oracle) (cfg : SearchConfig) (sk ek : String) (fuel : Nat)
    (st : SeqState) (dir : String) (batches : List (String × List String))
    (h : SInv sk ek fuel st) :
    SInv sk ek fuel (Searcher.runBatches ora cfg fuel st dir batches).1 := by
  unfold Searcher.runBatches
  exact foldl_pres (fun (p : SeqState × List WikiNode) => SInv sk ek fuel p.1) _
    (fun a b ha => fetch_sinv ora cfg sk ek fuel a.1 b.2 b.1 dir ha) batches (st, []) h

/-- The round loop preserves the state invariant. -/
theorem roundLoop_sinv (ora : Oracle) (cfg : SearchConfig) (sk ek : String) (fuel : Nat) :
    ∀ (rounds : Nat) (st : SeqState) (pqF pqB : List WikiNode), SInv sk ek fuel st →
      SInv sk ek fuel (Searcher.roundLoop ora cfg fuel rounds st pqF pqB) := by
  intro rounds
  induction rounds with
  | zero => intro st _ _ h; exact h
  | succ n ih =>
    intro st pqF pqB h
    unfold Searcher.roundLoop
    by_cases hc : (st.found || (pqF.isEmpty && pqB.isEmpty)) = true
    · simp only [hc, if_true]
      exact h
    · simp only [hc, Bool.false_eq_true, if_false]
      split
      · exact runBatches_sinv ora cfg sk ek fuel _ "B" _
          (runBatches_sinv ora cfg sk ek fuel st "F" _ h)
      · exact ih _ _ _ (runBatches_sinv ora cfg sk ek fuel _ "B" _
          (runBatches_sinv ora cfg sk ek fuel st "F" _ h))

/-- A single seeded root satisfies `NilOnly`. -/
theorem nilOnly_single (k0 : String) : NilOnly [(k0, (none : Option WikiNode))] k0 := by
  intro k hl
  by_cases hk : k = k0
  · exact hk
  · rw [lookup_cons_ne _ _ _ _ hk] at hl
    cases hl

/-- The state invariant holds at the end of every sequential search. -/
theorem Search_sinv (probe : Probe) (ora : Oracle) (fuel rounds : Nat)
    (startT endT lang : String) :
    SInv (resolvedStartNode probe lang startT).Key (resolvedEndNode probe lang endT).Key fuel
      (Searcher.Search probe ora fuel rounds startT endT lang).st := by
  unfold Searcher.Search
  dsimp only
  have h0 : SInv (resolvedStartNode probe lang startT).Key
      (resolvedEndNode probe lang endT).Key fuel
      { visitedF := [((resolvedStartNode probe lang startT).Key, none)],
        visitedB := [((resolvedEndNode probe lang endT).Key, none)],
        found := false, result := [], meeting := none,
        reqCount := 0, decOK := 0, decFail := 0 } :=
    ⟨nilOnly_single _, nilOnly_single _, fun hf => Bool.noConfusion hf, rfl⟩
  split
  · exact h0
  · split
    · exact fetch_sinv _ _ _ _ _ _ _ _ _ (fetch_sinv _ _ _ _ _ _ _ _ _ h0)
    · exact roundLoop_sinv _ _ _ _ _ _ _ _ _
        (fetch_sinv _ _ _ _ _ _ _ _ _ (fetch_sinv _ _ _ _ _ _ _ _ _ h0))

/-- Once `found` is set, the returned path is the stored result. -/
theorem Search_path_eq (probe : Probe) (ora : Oracle) (fuel rounds : Nat)
    (startT endT lang : String)
    (h : (Searcher.Search probe ora fuel rounds startT endT lang).st.found = true) :
    (Searcher.Search probe ora fuel rounds startT endT lang).path
      = (Searcher.Search probe ora fuel rounds startT endT lang).st.result := by
  unfold Searcher.Search at h ⊢
  dsimp only at h ⊢
  split
  · rename_i hc
    rw [if_pos hc] at h
    exact Bool.noConfusion h
  · split
    · rfl
    · rfl

/-- The forward walk always ends at the node it started from. -/
theorem fwdSteps_getLast (fuel : Nat) (v : VMap) (c : WikiNode) :
    (fwdSteps fuel v c).getLast? = some c := by
  cases fuel with
  | zero => rfl
  | succ n =>
    rw [fwdSteps]
    cases hv : v.lookup c.Key with
    | none => rfl
    | some o =>
      cases o with
      | none => rfl
      | some p => exact List.getLast?_concat _

/-- The backward walk is never empty. -/
theorem bwdSteps_ne_nil (fuel : Nat) (v : VMap) (c : WikiNode) :
    bwdSteps fuel v c ≠ [] := by
  cases fuel with
  | zero => simp [bwdSteps]
  | succ n =>
    rw [bwdSteps]
    cases hv : v.lookup c.Key with
    | none => simp
    | some o =>
      cases o with
      | none => simp
      | some p => simp

/-- Counterexample to claim C1: with a transport in which expanding the
start title "A" is answered by the redirected canonical page "Ared"
(`redirects=1` is set on every request), the search terminates with
`found` set and returns the path [Ared, M, B], whose first node's key
differs from the resolved start node's key: the forward parent walk
breaks at the unrecorded canonical title instead of reaching the seeded
root. -/
theorem searchPathHeadNotStart :
    (Searcher.Search probeNone redirOra 5 3 "A" "B" "en").st.found = true ∧
    1 ≤ (Searcher.Search probeNone redirOra 5 3 "A" "B" "en").path.length ∧
    (Searcher.Search probeNone redirOra 5 3 "A" "B" "en").path.head?.map WikiNode.Key ≠
      some (resolvedStartNode probeNone "en" "A").Key := by decide

/-- Claim C1 (amended): for every search of the sequential model that
terminates with `found` set, IF the forward parent walk from the meeting
node ends at an entry holding the root sentinel, and the backward walk
(when the meeting node has a non-nil backward parent) ends at a
root-sentinel entry, THEN the path is the concatenation of the forward
walk and the backward walk from the backward parent of the meeting node,
its first node's key is the resolved start node's key and its last
node's key is the resolved end node's key. (Node equality is key
equality, section 3 of the spec; the walk conditions are forced by the
redirect counterexample, where the walk stops early at a missing key.) -/
theorem searchPathEndpointKeys (probe : Probe) (ora : Oracle) (fuel rounds : Nat)
    (startT endT lang : String) (out : SearchOut) (m fh : WikiNode) (ft : List WikiNode)
    (hout : out = Searcher.Search probe ora fuel rounds startT endT lang)
    (hfound : out.st.found = true)
    (hm : out.st.meeting = some m)
    (hF : fwdSteps fuel out.st.visitedF m = fh :: ft)
    (hFroot : out.st.visitedF.lookup fh.Key = some none)
    (hB : ∀ p0 : WikiNode, out.st.visitedB.lookup m.Key = some (some p0) →
      ∃ z, (bwdSteps fuel out.st.visitedB p0).getLast? = some z ∧
        out.st.visitedB.lookup z.Key = some none) :
    out.path = buildPath fuel out.st.visitedF out.st.visitedB m ∧
    out.path.head? = some fh ∧
    fh.Key = (resolvedStartNode probe lang startT).Key ∧
    (∃ z, out.path.getLast? = some z ∧ z.Key = (resolvedEndNode probe lang endT).Key) := by
  have hinv := Search_sinv probe ora fuel rounds startT endT lang
  rw [← hout] at hinv
  obtain ⟨h1, h2, h3, _⟩ := hinv
  obtain ⟨m0, hm0, hres, _, hBs⟩ := h3 hfound
  rw [hm] at hm0
  injection hm0 with hmm
  subst hmm
  have hpath : out.path = out.st.result := by
    rw [hout]
    exact Search_path_eq probe ora fuel rounds startT endT lang (hout ▸ hfound)
  have hbp : out.path = buildPath fuel out.st.visitedF out.st.visitedB m := by
    rw [hpath, hres]
  refine ⟨hbp, ?_, h1 fh.Key hFroot, ?_⟩
  · rw [hbp]
    unfold buildPath
    dsimp only
    rw [hF, List.head?_append]
    rfl
  · rw [hbp]
    unfold buildPath
    dsimp only
    cases hvb : out.st.visitedB.lookup m.Key with
    | none =>
      rw [hvb] at hBs
      cases hBs
    | some o =>
      cases o with
      | none =>
        refine ⟨m, ?_, h2 m.Key hvb⟩
        rw [List.append_nil]
        exact fwdSteps_getLast fuel out.st.visitedF m
      | some p0 =>
        obtain ⟨z, hz1, hz2⟩ := hB p0 hvb
        refine ⟨z, ?_, h2 z.Key hz2⟩
        rw [List.getLast?_append, hz1]
        rfl

/-- Witness for the amended claim C1: a clean two-request meeting on M
in which both walks reach their roots; the theorem yields the endpoint
keys of the returned path [A, M, B]. -/
theorem searchPathEndpointKeysWitness :
    (Searcher.Search probeNone cleanOra 5 3 "A" "B" "en").path.head?
        = some (⟨"A", "en", 0⟩ : WikiNode) ∧
    (∃ z, (Searcher.Search probeNone cleanOra 5 3 "A" "B" "en").path.getLast? = some z ∧
      z.Key = (resolvedEndNode probeNone "en" "B").Key) := by
  have h := searchPathEndpointKeys probeNone cleanOra 5 3 "A" "B" "en"
    (Searcher.Search probeNone cleanOra 5 3 "A" "B" "en")
    ⟨"M", "en", 60⟩ ⟨"A", "en", 0⟩ [⟨"M", "en", 60⟩]
    rfl (by decide) (by decide) (by decide) (by decide)
    (by
      intro p0 hp
      have heval : (Searcher.Search probeNone cleanOra 5 3 "A" "B" "en").st.visitedB.lookup
          (WikiNode.Key ⟨"M", "en", 60⟩) = some (some ⟨"B", "en", 0⟩) := by decide
      rw [heval] at hp
      injection hp with hp1
      injection hp1 with hp2
      subst hp2
      exact ⟨⟨"B", "en", 0⟩, by decide, by decide⟩)
  exact ⟨h.2.1, h.2.2.2⟩

/-- Counterexample to claim C2: the resolved nodes (en, "Cat") and
(en, "cat") share the identity key "en:cat", yet the code's check is
case-sensitive title equality, so the search does not short-circuit: it
performs two round-0 expansions (request counter 2) and returns the
empty path rather than [startNode]. -/
theorem sameKeyNotShortCircuited :
    (resolvedStartNode probeNone "en" "Cat").Key = (resolvedEndNode probeNone "en" "cat").Key ∧
    (Searcher.Search probeNone catOra 5 3 "Cat" "cat" "en").path ≠
      [resolvedStartNode probeNone "en" "Cat"] ∧
    (Searcher.Search probeNone catOra 5 3 "Cat" "cat" "en").st.reqCount ≠ 0 := by decide

/-- Claim C2 (amended): when the resolved start and the resolved end
agree exactly as (lang, title) pairs (the code's case-sensitive check),
Search returns the one-element path [startNode] with the request counter
still 0. -/
theorem searchExactEqualReturnsSingleton (probe : Probe) (ora : Oracle) (fuel rounds : Nat)
    (startT endT lang : String)
    (heq : Searcher.resolveTitle probe lang startT = Searcher.resolveTitle probe lang endT) :
    (Searcher.Search probe ora fuel rounds startT endT lang).path
      = [resolvedStartNode probe lang startT] ∧
    (Searcher.Search probe ora fuel rounds startT endT lang).st.reqCount = 0 := by
  unfold Searcher.Search resolvedStartNode
  dsimp only
  rw [heq]
  simp

/-- Witness for the amended claim C2: a query whose two sides resolve to
the identical pair returns the singleton path with zero requests. -/
theorem searchExactEqualReturnsSingletonWitness :
    (Searcher.Search probeNone catOra 5 3 "Cat" "Cat" "en").path
      = [(⟨"Cat", "en", 0⟩ : WikiNode)] ∧
    (Searcher.Search probeNone catOra 5 3 "Cat" "Cat" "en").st.reqCount = 0 := by
  have h := searchExactEqualReturnsSingleton probeNone catOra 5 3 "Cat" "Cat" "en" rfl
  refine ⟨?_, h.2⟩
  rw [h.1]
  decide

/-- Counterexample to claim C5: a round-0 forward call whose response
arrives but fails to decode still increments the request counter (the
code increments right after `client.Do` succeeds, before decoding), so
the counter (2) exceeds the number of successfully decoded calls (1). -/
theorem decodeFailureStillCounted :
    (Searcher.Search probeNone decFailOra 5 3 "A" "B" "en").st.reqCount = 2 ∧
    (Searcher.Search probeNone decFailOra 5 3 "A" "B" "en").st.decOK = 1 ∧
    (Searcher.Search probeNone decFailOra 5 3 "A" "B" "en").st.reqCount ≠
      (Searcher.Search probeNone decFailOra 5 3 "A" "B" "en").st.decOK := by decide

/-- Claim C5 (amended): after any search, the request counter equals the
number of expand calls whose HTTP response was delivered (decoded plus
undecodable); transport errors do not increment it, decode failures and
non-2xx responses do (the status is never inspected). -/
theorem requestCounterCountsResponses (probe : Probe) (ora : Oracle) (fuel rounds : Nat)
    (startT endT lang : String) :
    (Searcher.Search probe ora fuel rounds startT endT lang).st.reqCount
      = (Searcher.Search probe ora fuel rounds startT endT lang).st.decOK
        + (Searcher.Search probe ora fuel rounds startT endT lang).st.decFail :=
  (Search_sinv probe ora fuel rounds startT endT lang).2.2.2

/-- Counterexample to claim C7: `fetch` never reads the HTTP status, so
a non-2xx (HTTP 500) response whose body decodes is processed like a
success and yields a successor node instead of an empty result. -/
theorem non2xxBodyStillProcessed :
    err500Ora ["X"] "en" "F" = FetchReply.resp 500 (some [⟨"X", ["L"], [], []⟩]) ∧
    (Searcher.fetch err500Ora plainCfg 5 plainSt ["X"] "en" "F").2
      = [(⟨"L", "en", 60⟩ : WikiNode)] :=
  ⟨rfl, by decide⟩

/-- Claim C7 (amended): an expand call that hits a transport error
(including cancellation) or whose body fails to decode yields no
successor nodes and leaves the visited maps, the found flag, the result
and the meeting node untouched; it is not retried (each batch consults
the transport exactly once), and the round goes on with the other calls'
results. Responses are processed regardless of HTTP status. -/
theorem fetchFailureYieldsEmpty (ora : Oracle) (cfg : SearchConfig) (fuel : Nat)
    (st : SeqState) (titles : List String) (lang dir : String)
    (h : ora titles lang dir = FetchReply.noResp ∨
      ∃ c, ora titles lang dir = FetchReply.resp c none) :
    (Searcher.fetch ora cfg fuel st titles lang dir).2 = [] ∧
    (Searcher.fetch ora cfg fuel st titles lang dir).1.visitedF = st.visitedF ∧
    (Searcher.fetch ora cfg fuel st titles lang dir).1.visitedB = st.visitedB ∧
    (Searcher.fetch ora cfg fuel st titles lang dir).1.found = st.found ∧
    (Searcher.fetch ora cfg fuel st titles lang dir).1.result = st.result ∧
    (Searcher.fetch ora cfg fuel st titles lang dir).1.meeting = st.meeting := by
  unfold Searcher.fetch
  by_cases hg : (st.found || titles.isEmpty) = true
  · simp [hg]
  · rcases h with h | ⟨c, h⟩ <;>
      simp [hg, h]

/-- Witness for the amended claim C7: a transport error yields an empty
successor list. -/
theorem fetchFailureYieldsEmptyWitness :
    (Searcher.fetch noRespOra plainCfg 5 plainSt ["X"] "en" "F").2 = [] :=
  (fetchFailureYieldsEmpty noRespOra plainCfg 5 plainSt ["X"] "en" "F" (Or.inl rfl)).1

/-- Two distinct members force length at least two. -/
theorem two_le_length_of_mem_ne {α : Type u} {a b : α} {l : List α}
    (ha : a ∈ l) (hb : b ∈ l) (hne : a ≠ b) : 2 ≤ l.length := by
  induction l with
  | nil => cases ha
  | cons x xs ih =>
    rcases List.mem_cons.mp ha with rfl | ha2
    · rcases List.mem_cons.mp hb with heq | hb2
      · exact absurd heq.symm hne
      · have := List.length_pos_of_mem hb2
        simp only [List.length_cons]
        omega
    · have := List.length_pos_of_mem ha2
      simp only [List.length_cons]
      omega

/-- Updating one position changes the filtered length by the difference
of the old and new elements' hits. -/
theorem filter_length_set {α : Type u} (p : α → Bool) :
    ∀ (l : List α) (i : Nat) (t t2 : α), l[i]? = some t →
      ((l.set i t2).filter p).length + (if p t then 1 else 0)
        = (l.filter p).length + (if p t2 then 1 else 0) := by
  intro l
  induction l with
  | nil =>
    intro i t t2 h
    simp at h
  | cons x xs ih =>
    intro i t t2 h
    cases i with
    | zero =>
      simp only [List.getElem?_cons_zero] at h
      injection h with h
      subst h
      simp only [List.set, List.filter_cons]
      by_cases hp : p x = true <;> by_cases hq : p t2 = true <;>
        simp [hp, hq]
    | succ n =>
      simp only [List.getElem?_cons_succ] at h
      have hrec := ih n t t2 h
      simp only [List.set, List.filter_cons]
      by_cases hp : p x = true
      · rw [if_pos hp, if_pos hp]
        simp only [List.length_cons]
        omega
      · rw [if_neg hp, if_neg hp]
        omega

namespace Atomic

/-- `setOwnM` leaves `found` and `meeting` unchanged. -/
theorem setOwnM_rest (st : AState) (d : String) (m : WikiSearch.VMap) :
    (setOwnM st d m).found = st.found ∧ (setOwnM st d m).meeting = st.meeting := by
  by_cases hd : d = "F" <;> simp [setOwnM, hd]

/-- Own-side map after a same-side store. -/
theorem ownM_setOwnM (st : AState) (d d2 : String) (m : WikiSearch.VMap) :
    ownM (setOwnM st d m) d2 = if (d2 = "F" ↔ d = "F") then m else ownM st d2 := by
  by_cases h1 : d = "F" <;> by_cases h2 : d2 = "F" <;> simp [ownM, setOwnM, h1, h2]

/-- Updating the meeting node leaves the visited maps unchanged. -/
theorem ownM_meeting (st : AState) (x : Option WikiNode) (d : String) :
    ownM { st with meeting := x } d = ownM st d := by
  by_cases hd : d = "F" <;> simp [ownM, hd]

/-- Updating the found flag leaves the visited maps unchanged. -/
theorem ownM_found (st : AState) (b : Bool) (d : String) :
    ownM { st with found := b } d = ownM st d := by
  by_cases hd : d = "F" <;> simp [ownM, hd]

/-- A member carrying `won` makes the winner count positive. -/
theorem winCount_pos_of_won {sys : Sys} {t : Task} (htm : t ∈ sys.tasks)
    (hw : t.won = true) : 1 ≤ winCount sys := by
  have : t ∈ sys.tasks.filter (fun u => u.won) := List.mem_filter.mpr ⟨htm, hw⟩
  exact List.length_pos_of_mem this

/-- Replacing one task without changing its winner flag keeps the winner
count. -/
theorem winCount_set (sys : Sys) (i : Nat) (t t2 : Task) (hidx : sys.tasks[i]? = some t)
    (st2 : AState) (hwon : t2.won = t.won) :
    winCount ⟨st2, sys.tasks.set i t2⟩ = winCount sys := by
  have hw := filter_length_set (fun u => u.won) sys.tasks i t t2 hidx
  simp only [] at hw
  simp only [hwon] at hw
  unfold winCount
  dsimp only
  omega

/-- Replacing a non-winner task by a winner raises the count by one. -/
theorem winCount_set_newwin (sys : Sys) (i : Nat) (t t2 : Task) (hidx : sys.tasks[i]? = some t)
    (st2 : AState) (h1 : t.won = false) (h2 : t2.won = true) :
    winCount ⟨st2, sys.tasks.set i t2⟩ = winCount sys + 1 := by
  have hw := filter_length_set (fun u => u.won) sys.tasks i t t2 hidx
  simp only [] at hw
  simp only [h1, h2] at hw
  simp at hw
  unfold winCount
  dsimp only
  omega

/-- Replacing task `i` without touching the shared state or the winner
flag preserves the invariant, given the three task-local clauses for the
replacement. -/
theorem inv_set_same_state (sys : Sys) (i : Nat) (t t2 : Task)
    (hidx : sys.tasks[i]? = some t) (hwon : t2.won = t.won)
    (h : Inv sys)
    (h4' : t2.pc = Pc.doStore → t2.won = true)
    (h5' : t2.won = true → t2.pc = Pc.done →
      sys.st.meeting = some t2.child ∧
      (ownM sys.st t2.dir).lookup t2.key = some (some t2.parent))
    (h6' : t2.won = true → t2.pc = Pc.doStore ∨ t2.pc = Pc.done)
    (h7' : t2.won = true → t2.pc = Pc.doStore → sys.st.meeting = none) :
    Inv ⟨sys.st, sys.tasks.set i t2⟩ := by
  obtain ⟨h1, h2, h3, h4, h5, h6, h7⟩ := h
  have hweq : winCount ⟨sys.st, sys.tasks.set i t2⟩ = winCount sys :=
    winCount_set sys i t t2 hidx sys.st hwon
  refine ⟨by rw [hweq]; exact h1, by rw [hweq]; exact h2, by rw [hweq]; exact h3,
    ?_, ?_, ?_, ?_⟩
  · intro u hu hupc
    rcases List.mem_or_eq_of_mem_set hu with hu2 | rfl
    · exact h4 u hu2 hupc
    · exact h4' hupc
  · intro u hu huw hupc
    rcases List.mem_or_eq_of_mem_set hu with hu2 | rfl
    · exact h5 u hu2 huw hupc
    · exact h5' huw hupc
  · intro u hu huw
    rcases List.mem_or_eq_of_mem_set hu with hu2 | rfl
    · exact h6 u hu2 huw
    · exact h6' huw
  · intro u hu huw hupc
    rcases List.mem_or_eq_of_mem_set hu with hu2 | rfl
    · exact h7 u hu2 huw hupc
    · exact h7' huw hupc

/-- One atomic step preserves the invariant. -/
theorem inv_step (sys : Sys) (i : Nat) (h : Inv sys) : Inv (step sys i) := by
  unfold step
  cases hidx : sys.tasks[i]? with
  | none => exact h
  | some t =>
    dsimp only
    have htmem : t ∈ sys.tasks := List.getElem?_mem hidx
    obtain ⟨h1, h2, h3, h4, h5, h6, h7⟩ := h
    have hnotwon_of_pc : ∀ (hp : t.pc = Pc.checkOther ∨ t.pc = Pc.tryCas ∨ t.pc = Pc.insert),
        t.won = true → False := by
      intro hp hw
      rcases h6 t htmem hw with hh | hh <;>
        rcases hp with hp | hp | hp <;> rw [hp] at hh <;> exact Pc.noConfusion hh
    unfold stepTask
    cases hpc : t.pc with
    | checkOther =>
      dsimp only
      by_cases hc : ((otherM sys.st t.dir).lookup t.key).isSome = true
      · simp only [hc, if_true]
        refine inv_set_same_state sys i t _ hidx rfl ⟨h1, h2, h3, h4, h5, h6, h7⟩ ?_ ?_ ?_ ?_
        · intro hp; exact Pc.noConfusion hp
        · intro _ hp; exact Pc.noConfusion hp
        · intro hw; exact absurd hw (hnotwon_of_pc (Or.inl hpc))
        · intro hw; exact absurd hw (hnotwon_of_pc (Or.inl hpc))
      · simp only [hc, Bool.false_eq_true, if_false]
        refine inv_set_same_state sys i t _ hidx rfl ⟨h1, h2, h3, h4, h5, h6, h7⟩ ?_ ?_ ?_ ?_
        · intro hp; exact Pc.noConfusion hp
        · intro _ hp; exact Pc.noConfusion hp
        · intro hw; exact absurd hw (hnotwon_of_pc (Or.inl hpc))
        · intro hw; exact absurd hw (hnotwon_of_pc (Or.inl hpc))
    | tryCas =>
      dsimp only
      by_cases hc : sys.st.found = true
      · simp only [hc, if_true]
        refine inv_set_same_state sys i t _ hidx rfl ⟨h1, h2, h3, h4, h5, h6, h7⟩ ?_ ?_ ?_ ?_
        · intro hp; exact Pc.noConfusion hp
        · intro _ hp; exact Pc.noConfusion hp
        · intro hw; exact absurd hw (hnotwon_of_pc (Or.inr (Or.inl hpc)))
        · intro hw; exact absurd hw (hnotwon_of_pc (Or.inr (Or.inl hpc)))
      · simp only [hc, Bool.false_eq_true, if_false]
        have hfound : sys.st.found = false := by
          cases hsv : sys.st.found
          · rfl
          · exact absurd hsv hc
        have hwc0 : winCount sys = 0 := by
          by_contra hne
          have : 1 ≤ winCount sys := by omega
          have := h1.mpr this
          rw [hfound] at this
          exact Bool.noConfusion this
        have htwon : t.won = false := by
          cases hsv : t.won
          · rfl
          · have := winCount_pos_of_won htmem hsv
            omega
        have hwc1 : winCount ⟨{ sys.st with found := true },
            sys.tasks.set i { t with pc := Pc.doStore, won := true }⟩ = 1 := by
          rw [winCount_set_newwin sys i t _ hidx _ htwon rfl, hwc0]
        refine ⟨?_, ?_, ?_, ?_, ?_, ?_, ?_⟩
        · rw [hwc1]
          exact ⟨fun _ => le_refl 1, fun _ => rfl⟩
        · rw [hwc1]
        · rw [hwc1]
          intro hz
          exact absurd hz one_ne_zero
        · intro u hu hupc
          rcases List.mem_or_eq_of_mem_set hu with hu2 | rfl
          · exact h4 u hu2 hupc
          · rfl
        · intro u hu huw hupc
          rcases List.mem_or_eq_of_mem_set hu with hu2 | rfl
          · exfalso
            have := winCount_pos_of_won hu2 huw
            omega
          · exact absurd hupc (by intro hh; exact Pc.noConfusion hh)
        · intro u hu huw
          rcases List.mem_or_eq_of_mem_set hu with hu2 | rfl
          · exfalso
            have := winCount_pos_of_won hu2 huw
            omega
          · exact Or.inl rfl
        · intro u hu huw _
          rcases List.mem_or_eq_of_mem_set hu with hu2 | rfl
          · exfalso
            have := winCount_pos_of_won hu2 huw
            omega
          · exact h3 hwc0
    | doStore =>
      dsimp only
      have htwon : t.won = true := h4 t htmem hpc
      have hwpos : 1 ≤ winCount sys := winCount_pos_of_won htmem htwon
      have hwc1 : winCount sys = 1 := by omega
      have hfound : sys.st.found = true := h1.mpr hwpos
      have hweq : winCount ⟨{ setOwnM sys.st t.dir ((t.key, some t.parent) :: ownM sys.st t.dir)
          with meeting := some t.child },
          sys.tasks.set i { t with pc := Pc.done }⟩ = winCount sys :=
        winCount_set sys i t _ hidx _ rfl
      refine ⟨?_, ?_, ?_, ?_, ?_, ?_, ?_⟩
      · rw [hweq]
        have : ({ setOwnM sys.st t.dir ((t.key, some t.parent) :: ownM sys.st t.dir)
            with meeting := some t.child } : AState).found = sys.st.found :=
          (setOwnM_rest sys.st t.dir _).1
        rw [this]
        exact h1
      · rw [hweq]
        exact h2
      · rw [hweq, hwc1]
        intro hz
        exact absurd hz one_ne_zero
      · intro u hu hupc
        rcases List.mem_or_eq_of_mem_set hu with hu2 | rfl
        · exact h4 u hu2 hupc
        · exact Pc.noConfusion hupc
      · intro u hu huw hupc
        rcases List.mem_or_eq_of_mem_set hu with hu2 | rfl
        · exfalso
          have hune : u ≠ t := by
            intro heq
            rw [heq, hpc] at hupc
            exact Pc.noConfusion hupc
          have hboth : 2 ≤ (sys.tasks.filter (fun v => v.won)).length :=
            two_le_length_of_mem_ne (List.mem_filter.mpr ⟨hu2, huw⟩)
              (List.mem_filter.mpr ⟨htmem, htwon⟩) hune
          unfold winCount at hwc1
          omega
        · constructor
          · rfl
          · rw [ownM_meeting, ownM_setOwnM, if_pos Iff.rfl]
            exact lookup_cons_self t.key (some t.parent) _
      · intro u hu huw
        rcases List.mem_or_eq_of_mem_set hu with hu2 | rfl
        · exact h6 u hu2 huw
        · exact Or.inr rfl
      · intro u hu huw hupc
        exfalso
        have hilt : i < sys.tasks.length := by
          rcases List.getElem?_eq_some.mp hidx with ⟨hl, _⟩
          exact hl
        have ht2mem : ({ t with pc := Pc.done } : Task) ∈
            sys.tasks.set i { t with pc := Pc.done } :=
          List.getElem?_mem (List.getElem?_set_self hilt)
        have hune : u ≠ ({ t with pc := Pc.done } : Task) := by
          intro heq
          rw [heq] at hupc
          exact Pc.noConfusion hupc
        have hboth : 2 ≤ ((sys.tasks.set i { t with pc := Pc.done }).filter
            (fun v => v.won)).length :=
          two_le_length_of_mem_ne (List.mem_filter.mpr ⟨hu, huw⟩)
            (List.mem_filter.mpr ⟨ht2mem, htwon⟩) hune
        have hnew : winCount ⟨{ setOwnM sys.st t.dir ((t.key, some t.parent) ::
            ownM sys.st t.dir) with meeting := some t.child },
            sys.tasks.set i { t with pc := Pc.done }⟩
            = (sys.tasks.set i { t with pc := Pc.done } |>.filter (fun v => v.won)).length :=
          rfl
        rw [hweq, hwc1] at hnew
        omega
    | insert =>
      dsimp only
      by_cases hc : ((ownM sys.st t.dir).lookup t.key).isSome = true
      · simp only [hc, if_true]
        refine inv_set_same_state sys i t _ hidx rfl ⟨h1, h2, h3, h4, h5, h6, h7⟩ ?_ ?_ ?_ ?_
        · intro hp; exact Pc.noConfusion hp
        · intro hw2 _
          exact absurd hw2 (hnotwon_of_pc (Or.inr (Or.inr hpc)))
        · intro hw2
          exact absurd hw2 (hnotwon_of_pc (Or.inr (Or.inr hpc)))
        · intro hw2 _
          exact absurd hw2 (hnotwon_of_pc (Or.inr (Or.inr hpc)))
      · simp only [hc, Bool.false_eq_true, if_false]
        have hweq : winCount ⟨setOwnM sys.st t.dir ((t.key, some t.parent) :: ownM sys.st t.dir),
            sys.tasks.set i { t with pc := Pc.done }⟩ = winCount sys :=
          winCount_set sys i t _ hidx _ rfl
        refine ⟨?_, ?_, ?_, ?_, ?_, ?_, ?_⟩
        · rw [hweq, (setOwnM_rest sys.st t.dir _).1]
          exact h1
        · rw [hweq]
          exact h2
        · rw [hweq]
          intro hz
          rw [(setOwnM_rest sys.st t.dir _).2]
          exact h3 hz
        · intro u hu hupc
          rcases List.mem_or_eq_of_mem_set hu with hu2 | rfl
          · exact h4 u hu2 hupc
          · exact Pc.noConfusion hupc
        · intro u hu huw hupc
          rcases List.mem_or_eq_of_mem_set hu with hu2 | rfl
          · have hold := h5 u hu2 huw hupc
            refine ⟨by rw [(setOwnM_rest sys.st t.dir _).2]; exact hold.1, ?_⟩
            rw [ownM_setOwnM]
            by_cases hside : (u.dir = "F" ↔ t.dir = "F")
            · simp only [hside, if_true]
              by_cases hk : u.key = t.key
              · exfalso
                have hsame : ownM sys.st u.dir = ownM sys.st t.dir := by
                  unfold ownM
                  by_cases hu3 : u.dir = "F"
                  · rw [if_pos hu3, if_pos (hside.mp hu3)]
                  · rw [if_neg hu3, if_neg (fun hh => hu3 (hside.mpr hh))]
                rw [hsame, hk] at hold
                rw [hold.2] at hc
                exact hc rfl
              · rw [lookup_cons_ne _ _ _ _ hk]
                have hsame : ownM sys.st u.dir = ownM sys.st t.dir := by
                  unfold ownM
                  by_cases hu3 : u.dir = "F"
                  · rw [if_pos hu3, if_pos (hside.mp hu3)]
                  · rw [if_neg hu3, if_neg (fun hh => hu3 (hside.mpr hh))]
                rw [← hsame]
                exact hold.2
            · simp only [hside, if_false]
              exact hold.2
          · exfalso
            exact hnotwon_of_pc (Or.inr (Or.inr hpc)) huw
        · intro u hu huw
          rcases List.mem_or_eq_of_mem_set hu with hu2 | rfl
          · exact h6 u hu2 huw
          · exfalso
            exact hnotwon_of_pc (Or.inr (Or.inr hpc)) huw
        · intro u hu huw hupc
          rw [(setOwnM_rest sys.st t.dir _).2]
          rcases List.mem_or_eq_of_mem_set hu with hu2 | rfl
          · exact h7 u hu2 huw hupc
          · exfalso
            exact hnotwon_of_pc (Or.inr (Or.inr hpc)) huw
    | done =>
      dsimp only
      refine inv_set_same_state sys i t t hidx rfl ⟨h1, h2, h3, h4, h5, h6, h7⟩ ?_ ?_ ?_ ?_
      · intro hp
        exact h4 t htmem hp
      · intro hw2 hp
        exact h5 t htmem hw2 hp
      · intro hw2
        exact h6 t htmem hw2
      · intro hw2 hp
        exact h7 t htmem hw2 hp

/-- The invariant holds along every schedule. -/
theorem inv_run (sys : Sys) (sched : List Nat) (h : Inv sys) : Inv (run sys sched) := by
  induction sched generalizing sys with
  | nil => exact h
  | cons i rest ih => exact ih _ (inv_step sys i h)

/-- No atomic operation unsets `found`. -/
theorem found_mono_step (sys : Sys) (i : Nat) (h : sys.st.found = true) :
    (step sys i).st.found = true := by
  unfold step
  cases hidx : sys.tasks[i]? with
  | none => exact h
  | some t =>
    dsimp only
    unfold stepTask
    cases t.pc with
    | checkOther =>
      dsimp only
      split <;> exact h
    | tryCas =>
      dsimp only
      split
      · exact h
      · rename_i hc
        exact absurd h hc
    | doStore =>
      exact (setOwnM_rest sys.st t.dir _).1.trans h
    | insert =>
      dsimp only
      split
      · exact h
      · exact (setOwnM_rest sys.st t.dir _).1.trans h
    | done => exact h

/-- Running a concatenated schedule is running the parts in turn. -/
theorem run_append (sys : Sys) (l1 l2 : List Nat) :
    run sys (l1 ++ l2) = run (run sys l1) l2 := by
  induction l1 generalizing sys with
  | nil => rfl
  | cons i rest ih => exact ih (step sys i)

/-- `found` stays set along any schedule. -/
theorem found_mono_run (sys : Sys) (l : List Nat) (h : sys.st.found = true) :
    (run sys l).st.found = true := by
  induction l generalizing sys with
  | nil => exact h
  | cons i rest ih => exact ih (step sys i) (found_mono_step sys i h)

/-- The invariant holds in the initial system of a search: `found` unset,
no meeting node, every pending task at its opposite-map load. -/
theorem inv_init (st0 : AState) (tasks0 : List Task)
    (hf : st0.found = false) (hmeet : st0.meeting = none)
    (ht : ∀ t ∈ tasks0, t.pc = Pc.checkOther ∧ t.won = false) :
    Inv ⟨st0, tasks0⟩ := by
  have hw0 : winCount ⟨st0, tasks0⟩ = 0 := by
    have hnil : tasks0.filter (fun u => u.won) = [] := by
      rw [List.filter_eq_nil_iff]
      intro u hu
      rw [(ht u hu).2]
      exact Bool.noConfusion
    show (tasks0.filter (fun u => u.won)).length = 0
    rw [hnil]
    rfl
  refine ⟨?_, ?_, ?_, ?_, ?_, ?_, ?_⟩
  · rw [hw0]
    constructor
    · intro hfd
      rw [show (⟨st0, tasks0⟩ : Sys).st.found = st0.found from rfl, hf] at hfd
      exact Bool.noConfusion hfd
    · intro hle
      omega
  · rw [hw0]
    omega
  · intro _
    exact hmeet
  · intro u hu hupc
    rw [(ht u hu).1] at hupc
    exact Pc.noConfusion hupc
  · intro u hu huw _
    rw [(ht u hu).2] at huw
    exact Bool.noConfusion huw
  · intro u hu huw
    rw [(ht u hu).2] at huw
    exact Bool.noConfusion huw
  · intro u hu huw _
    rw [(ht u hu).2] at huw
    exact Bool.noConfusion huw

end Atomic

/-- Claim C4: from any start of a search (found unset, no meeting, all
child tasks at their initial load) and along every schedule of atomic
operations: once `found` is set it never becomes false again; at most
one task wins the compare-and-swap, and `found` is set exactly when one
did; no meeting node is recorded unless a winner exists; and every
finished winner has recorded the meeting node and the winning side's
parent for the meeting key, while all losers observed `found` and
recorded neither. -/
theorem foundMonotoneUniqueWinner (st0 : Atomic.AState) (tasks0 : List Atomic.Task)
    (sched : List Nat)
    (hf : st0.found = false) (hmeet : st0.meeting = none)
    (ht : ∀ t ∈ tasks0, t.pc = Atomic.Pc.checkOther ∧ t.won = false) :
    (∀ l1 l2, (Atomic.run ⟨st0, tasks0⟩ l1).st.found = true →
      (Atomic.run ⟨st0, tasks0⟩ (l1 ++ l2)).st.found = true) ∧
    Atomic.winCount (Atomic.run ⟨st0, tasks0⟩ sched) ≤ 1 ∧
    ((Atomic.run ⟨st0, tasks0⟩ sched).st.found = true ↔
      Atomic.winCount (Atomic.run ⟨st0, tasks0⟩ sched) = 1) ∧
    (Atomic.winCount (Atomic.run ⟨st0, tasks0⟩ sched) = 0 →
      (Atomic.run ⟨st0, tasks0⟩ sched).st.meeting = none) ∧
    (∀ t ∈ (Atomic.run ⟨st0, tasks0⟩ sched).tasks, t.won = true → t.pc = Atomic.Pc.done →
      (Atomic.run ⟨st0, tasks0⟩ sched).st.meeting = some t.child ∧
      ((Atomic.ownM (Atomic.run ⟨st0, tasks0⟩ sched).st t.dir).lookup t.key)
        = some (some t.parent)) := by
  have hinv := Atomic.inv_run ⟨st0, tasks0⟩ sched (Atomic.inv_init st0 tasks0 hf hmeet ht)
  obtain ⟨i1, i2, i3, i4, i5, i6, i7⟩ := hinv
  refine ⟨?_, i2, ?_, i3, i5⟩
  · intro l1 l2 hl
    rw [Atomic.run_append]
    exact Atomic.found_mono_run _ l2 hl
  · constructor
    · intro hf2
      have h1le := i1.mp hf2
      omega
    · intro hw1
      exact i1.mpr (by omega)

/-- Witness for claim C4: a single forward task meets the already-seeded
backward key en:k, wins the compare-and-swap and stores; the theorem
yields winner uniqueness at that run. -/
theorem foundMonotoneUniqueWinnerWitness :
    Atomic.winCount (Atomic.run ⟨casSys.st, casSys.tasks⟩ [0, 0, 0]) = 1 :=
  ((foundMonotoneUniqueWinner casSys.st casSys.tasks [0, 0, 0] rfl rfl
    (by decide)).2.2.1).mp (by decide)

/-- Counterexample to claim C3: in the racy meeting scenario the key
en:k enters both visited maps without a meeting being noticed (both
opposite-map loads run before either insertion); a later forward
expansion of P rediscovers en:k, wins the compare-and-swap — at that
point `found` is already true and visitedF stores parent A for en:k —
and its subsequent `own.Store` overwrites that existing parent with P:
a visited-map write performed after `found` was set overwrote an
existing parent entry. -/
theorem winningStoreOverwrites :
    (Atomic.run kpSys kpSchedPre).st.found = true ∧
    ((Atomic.run kpSys kpSchedPre).st.visitedF.lookup nodeK.Key) = some (some nodeA) ∧
    Atomic.run kpSys kpSched = Atomic.step (Atomic.run kpSys kpSchedPre) 3 ∧
    ((Atomic.run kpSys kpSched).st.visitedF.lookup nodeK.Key) = some (some nodeP) ∧
    nodeP ≠ nodeA := by decide

/-- Claim C3 (amended): in every invariant-respecting system, one atomic
step (a) never changes a recorded meeting node, (b) is a complete no-op
when it is a `LoadOrStore` whose key already has a parent — the parent
is fixed by the first insertion — and (c) can change an existing
visited-map entry only if it is the winning meeting claim's `Store`,
which writes the winner's parent for the meeting key. -/
theorem visitedWriteStability (sys : Atomic.Sys) (i : Nat) (hinv : Atomic.Inv sys) :
    (∀ m, sys.st.meeting = some m → (Atomic.step sys i).st.meeting = some m) ∧
    (∀ t, sys.tasks[i]? = some t → t.pc = Atomic.Pc.insert →
      ∀ p, ((Atomic.ownM sys.st t.dir).lookup t.key) = some p →
        (Atomic.step sys i).st = sys.st) ∧
    (∀ d k p p2, ((Atomic.ownM sys.st d).lookup k) = some p →
      ((Atomic.ownM (Atomic.step sys i).st d).lookup k) = some p2 → p2 ≠ p →
      ∃ t, sys.tasks[i]? = some t ∧ t.pc = Atomic.Pc.doStore ∧ t.won = true ∧
        (t.dir = "F" ↔ d = "F") ∧ t.key = k ∧ p2 = some t.parent) := by
  obtain ⟨h1, h2, h3, h4, h5, h6, h7⟩ := hinv
  cases hidx : sys.tasks[i]? with
  | none =>
    have hstep : Atomic.step sys i = sys := by
      unfold Atomic.step
      rw [hidx]
    rw [hstep]
    refine ⟨fun m hm => hm, ?_, ?_⟩
    · intro t2 ht2
      exact Option.noConfusion ht2
    · intro d k p p2 hp hp2 hne
      rw [hp] at hp2
      injection hp2 with hp2
      exact absurd hp2.symm hne
  | some t =>
    have hstep : Atomic.step sys i =
        ⟨(Atomic.stepTask sys.st t).1, sys.tasks.set i (Atomic.stepTask sys.st t).2⟩ := by
      unfold Atomic.step
      rw [hidx]
    rw [hstep]
    have htmem : t ∈ sys.tasks := List.getElem?_mem hidx
    unfold Atomic.stepTask
    cases hpc : t.pc with
    | checkOther =>
      dsimp only
      by_cases hc : ((Atomic.otherM sys.st t.dir).lookup t.key).isSome = true
      · simp only [hc, if_true]
        refine ⟨fun m hm => hm, ?_, ?_⟩
        · intro t2 ht2 hpc2 p hp
          injection ht2 with ht2
          rw [← ht2, hpc] at hpc2
          exact Atomic.Pc.noConfusion hpc2
        · intro d k p p2 hp hp2 hne
          rw [hp] at hp2
          injection hp2 with hp2
          exact absurd hp2.symm hne
      · simp only [hc, Bool.false_eq_true, if_false]
        refine ⟨fun m hm => hm, ?_, ?_⟩
        · intro t2 ht2 hpc2 p hp
          injection ht2 with ht2
          rw [← ht2, hpc] at hpc2
          exact Atomic.Pc.noConfusion hpc2
        · intro d k p p2 hp hp2 hne
          rw [hp] at hp2
          injection hp2 with hp2
          exact absurd hp2.symm hne
    | tryCas =>
      dsimp only
      by_cases hc : sys.st.found = true
      · simp only [hc, if_true]
        refine ⟨fun m hm => hm, ?_, ?_⟩
        · intro t2 ht2 hpc2 p hp
          injection ht2 with ht2
          rw [← ht2, hpc] at hpc2
          exact Atomic.Pc.noConfusion hpc2
        · intro d k p p2 hp hp2 hne
          rw [hp] at hp2
          injection hp2 with hp2
          exact absurd hp2.symm hne
      · simp only [hc, Bool.false_eq_true, if_false]
        refine ⟨fun m hm => hm, ?_, ?_⟩
        · intro t2 ht2 hpc2 p hp
          injection ht2 with ht2
          rw [← ht2, hpc] at hpc2
          exact Atomic.Pc.noConfusion hpc2
        · intro d k p p2 hp hp2 hne
          rw [Atomic.ownM_found, hp] at hp2
          injection hp2 with hp2
          exact absurd hp2.symm hne
    | doStore =>
      dsimp only
      refine ⟨?_, ?_, ?_⟩
      · intro m hm
        exfalso
        have := h7 t htmem (h4 t htmem hpc) hpc
        rw [this] at hm
        exact Option.noConfusion hm
      · intro t2 ht2 hpc2 p hp
        injection ht2 with ht2
        rw [← ht2, hpc] at hpc2
        exact Atomic.Pc.noConfusion hpc2
      · intro d k p p2 hp hp2 hne
        rw [Atomic.ownM_meeting, Atomic.ownM_setOwnM] at hp2
        by_cases hside : (d = "F" ↔ t.dir = "F")
        · rw [if_pos hside] at hp2
          by_cases hk : k = t.key
          · subst hk
            rw [lookup_cons_self] at hp2
            injection hp2 with hp2
            exact ⟨t, rfl, hpc, h4 t htmem hpc, hside.symm, rfl, hp2.symm⟩
          · rw [lookup_cons_ne _ _ _ _ hk] at hp2
            have hsame : Atomic.ownM sys.st d = Atomic.ownM sys.st t.dir := by
              unfold Atomic.ownM
              by_cases hdF : d = "F"
              · rw [if_pos hdF, if_pos (hside.mp hdF)]
              · rw [if_neg hdF, if_neg (fun hh => hdF (hside.mpr hh))]
            rw [← hsame, hp] at hp2
            injection hp2 with hp2
            exact absurd hp2.symm hne
        · rw [if_neg hside] at hp2
          rw [hp] at hp2
          injection hp2 with hp2
          exact absurd hp2.symm hne
    | insert =>
      dsimp only
      by_cases hc : ((Atomic.ownM sys.st t.dir).lookup t.key).isSome = true
      · simp only [hc, if_true]
        refine ⟨fun m hm => hm, fun _ _ _ _ _ => trivial, ?_⟩
        intro d k p p2 hp hp2 hne
        rw [hp] at hp2
        injection hp2 with hp2
        exact absurd hp2.symm hne
      · simp only [hc, Bool.false_eq_true, if_false]
        refine ⟨?_, ?_, ?_⟩
        · intro m hm
          rw [(Atomic.setOwnM_rest sys.st t.dir _).2]
          exact hm
        · intro t2 ht2 _ p hp
          injection ht2 with ht2
          rw [← ht2] at hp
          rw [hp] at hc
          exact absurd rfl hc
        · intro d k p p2 hp hp2 hne
          exfalso
          rw [Atomic.ownM_setOwnM] at hp2
          by_cases hside : (d = "F" ↔ t.dir = "F")
          · rw [if_pos hside] at hp2
            by_cases hk : k = t.key
            · subst hk
              have hsame2 : Atomic.ownM sys.st d = Atomic.ownM sys.st t.dir := by
                unfold Atomic.ownM
                by_cases hdF : d = "F"
                · rw [if_pos hdF, if_pos (hside.mp hdF)]
                · rw [if_neg hdF, if_neg (fun hh => hdF (hside.mpr hh))]
              rw [← hsame2, hp] at hc
              exact hc rfl
            · rw [lookup_cons_ne _ _ _ _ hk] at hp2
              have hsame2 : Atomic.ownM sys.st d = Atomic.ownM sys.st t.dir := by
                unfold Atomic.ownM
                by_cases hdF : d = "F"
                · rw [if_pos hdF, if_pos (hside.mp hdF)]
                · rw [if_neg hdF, if_neg (fun hh => hdF (hside.mpr hh))]
              rw [← hsame2, hp] at hp2
              injection hp2 with hp2
              exact absurd hp2.symm hne
          · rw [if_neg hside] at hp2
            rw [hp] at hp2
            injection hp2 with hp2
            exact absurd hp2.symm hne
    | done =>
      dsimp only
      refine ⟨fun m hm => hm, fun _ _ _ _ _ => rfl, ?_⟩
      · intro d k p p2 hp hp2 hne
        rw [hp] at hp2
        injection hp2 with hp2
        exact absurd hp2.symm hne

/-- Witness for the amended claim C3: applied to the completed racy run
(whose final state satisfies the invariant), the meeting node K recorded
there survives one more step. -/
theorem visitedWriteStabilityWitness :
    (Atomic.step (Atomic.run kpSys kpSched) 0).st.meeting = some nodeK :=
  (visitedWriteStability (Atomic.run kpSys kpSched) 0
    (Atomic.inv_run kpSys kpSched
      (Atomic.inv_init kpSys.st kpSys.tasks rfl rfl (by decide)))).1 nodeK (by decide)

/-- Claim C9 is violated by the code (code bug): after the racy meeting
run, visitedF holds the parent cycle en:k -> en:p -> en:k, so the
forward parent walk from K never stops: `buildPath` (whose loop in the
Go source has no bound) does not terminate on this reachable state. -/
theorem parentCycleWalkDiverges :
    (Atomic.run kpSys kpSched).st.found = true ∧
    ((Atomic.run kpSys kpSched).st.visitedF.lookup nodeK.Key) = some (some nodeP) ∧
    ((Atomic.run kpSys kpSched).st.visitedF.lookup nodeP.Key) = some (some nodeK) ∧
    ∀ fuel, Atomic.walkEnds fuel (Atomic.run kpSys kpSched).st.visitedF nodeK = false := by
  have hK : ((Atomic.run kpSys kpSched).st.visitedF.lookup nodeK.Key)
      = some (some nodeP) := by decide
  have hP : ((Atomic.run kpSys kpSched).st.visitedF.lookup nodeP.Key)
      = some (some nodeK) := by decide
  refine ⟨by decide, hK, hP, ?_⟩
  have key : ∀ fuel,
      Atomic.walkEnds fuel (Atomic.run kpSys kpSched).st.visitedF nodeK = false ∧
      Atomic.walkEnds fuel (Atomic.run kpSys kpSched).st.visitedF nodeP = false := by
    intro fuel
    induction fuel with
    | zero => exact ⟨rfl, rfl⟩
    | succ n ih =>
      constructor
      · show Atomic.walkEnds (n + 1) _ _ = false
        rw [Atomic.walkEnds, hK]
        exact ih.2
      · show Atomic.walkEnds (n + 1) _ _ = false
        rw [Atomic.walkEnds, hP]
        exact ih.1
  exact fun fuel => (key fuel).1

end WikiSearch
